import Mathlib

set_option maxHeartbeats 1000000

/-!
Verification of the pgen grammar compiler (`parso/pgen2/pgen.py`): the
NFAGraph-to-DFA powerset construction `_make_dfas`, the pairwise DFA minimizer
`_simplify_dfas`, and the transition-compilation pass of `generate_grammar`
with `_make_transition`.

Python objects compared by identity are embedded as arena indices:
NFAGraph nodes are indices into the fragment's arc table, DFA states carry their
creation index as identity through minimization, and reserved strings are
indices into the grammar-wide interning list.  The unbounded loops of the
source (the recursive epsilon closure, the growing worklist of the powerset
construction, and the fixpoint loop of the minimizer) take an explicit fuel
argument and return `none` / `PErr.outOfFuel` when it runs out; fuel
sufficiency is proved separately.
-/

deriving instance DecidableEq for Except

/-- An outgoing arc of an NFAGraph node: `nonterminal_or_string` is `none` for an
epsilon edge, otherwise a terminal or nonterminal label; `next` is the
identity (index) of the target node. -/
structure NFAArc where
  nonterminal_or_string : Option String
  next : Nat
deriving DecidableEq

/-- An NFAGraph fragment of one rule.  Nodes are identified by indices
`0, ..., arcs.length - 1`; entry `i` of `arcs` lists node `i`'s outgoing
arcs.  `rule` is the `from_rule` name shared by the fragment's nodes. -/
structure NFAGraph where
  rule : String
  arcs : List (List NFAArc)
deriving DecidableEq

/-- Number of nodes of the fragment. -/
def NFAGraph.n (nfa : NFAGraph) : Nat := nfa.arcs.length

/-- The outgoing arcs of node `i` (empty for an out-of-range index). -/
def NFAGraph.arcsOf (nfa : NFAGraph) (i : Nat) : List NFAArc := nfa.arcs.getD i []

/-- Well-formedness of a fragment: every arc points at a node of the
fragment. -/
def NFAGraph.WF (nfa : NFAGraph) : Prop :=
  ∀ l ∈ nfa.arcs, ∀ a ∈ l, a.next < nfa.arcs.length

instance (nfa : NFAGraph) : Decidable nfa.WF := by
  unfold NFAGraph.WF
  infer_instance

/-- The `for nfa_arc in nfa_state.arcs` loop of `addclosure`, threading the
growing set through the epsilon arcs; `next` is the recursive call of
`addclosure` at the remaining fuel. -/
def closureArcs (next : Nat → Finset Nat → Option (Finset Nat)) :
    List NFAArc → Finset Nat → Option (Finset Nat)
  | [], base => some base
  | arc :: rest, base =>
    if arc.nonterminal_or_string = none then
      match next arc.next base with
      | none => none
      | some base2 => closureArcs next rest base2
    else closureArcs next rest base

/-- Fueled embedding of `addclosure` from `_make_dfas`: if the node is
already in the set, stop; otherwise insert it and recurse through every
epsilon arc.  `none` means the fuel ran out. -/
def addclosure (nfa : NFAGraph) : Nat → Nat → Finset Nat → Option (Finset Nat)
  | 0, _, _ => none
  | fuel + 1, nfa_state, base_nfa_set =>
    if nfa_state ∈ base_nfa_set then some base_nfa_set
    else closureArcs (addclosure nfa fuel) (nfa.arcsOf nfa_state)
      (insert nfa_state base_nfa_set)

/-- One epsilon step of the NFAGraph: an unlabeled arc from `a` to `b`. -/
def epsStep (nfa : NFAGraph) (a b : Nat) : Prop :=
  ∃ arc ∈ nfa.arcsOf a, arc.nonterminal_or_string = none ∧ arc.next = b

/-- The mathematical epsilon closure of a node: everything reachable through
unlabeled arcs, the node itself included. -/
def epsClosure (nfa : NFAGraph) (s : Nat) : Set Nat :=
  setOf (Relation.ReflTransGen (epsStep nfa) s)

/-- Embedding of `DFAState`: `nfa_set` is the set of NFAGraph node identities the
state stands for, `is_final` the finality flag set by the constructor, and
`arcs` the ordered label-to-target dictionary, targets being DFA state
identities (creation indices). -/
structure DFAState where
  from_rule : String
  nfa_set : Finset Nat
  is_final : Bool
  arcs : List (String × Nat)
deriving DecidableEq

/-- Embedding of `DFAState.__init__`: `is_final` is true exactly when the
rule's `finish` node is a member of `nfa_set`; the arc dictionary starts
empty. -/
def mkDFAState (from_rule : String) (nfa_set : Finset Nat) (final : Nat) : DFAState :=
  { from_rule := from_rule
    nfa_set := nfa_set
    is_final := decide (final ∈ nfa_set)
    arcs := [] }

/-- The error outcomes of the embedded compiler: exhausted fuel, the
`add_arc` duplicate-label assertion, an out-of-range list index, a missing
token-category name (`AttributeError`), the quote assertion and the
triple-quote assertion of `_make_transition`, and a failed `literal_eval`
(`ValueError`). -/
inductive PErr where
  | outOfFuel
  | assertArc
  | indexError
  | attributeError
  | assertQuote
  | assertTriple
  | valueError
deriving DecidableEq

/-- Embedding of `DFAState.add_arc`: asserts the label is not already
present, then appends the binding at the end of the dictionary. -/
def DFAState.add_arc (st : DFAState) (next_ : Nat) (label : String) : Except PErr DFAState :=
  if label ∈ st.arcs.map Prod.fst then Except.error PErr.assertArc
  else Except.ok { st with arcs := st.arcs ++ [(label, next_)] }

/-- Embedding of `DFAState.unifystate`: every arc whose target is (the
identity of) `old` is rewritten to point at `new_`. -/
def DFAState.unifystate (st : DFAState) (old new_ : Nat) : DFAState :=
  { st with arcs := st.arcs.map fun p => if p.2 = old then (p.1, new_) else p }

/-- Embedding of `DFAState.__eq__`: compare finality, then the sizes of the
arc dictionaries, then ask that every label of the first maps to the
identical target in the second; `nfa_set` is ignored. -/
def dfaEq (s t : DFAState) : Bool :=
  if s.is_final != t.is_final then false
  else if s.arcs.length != t.arcs.length then false
  else s.arcs.all fun p =>
    match t.arcs.find? (fun q => decide (q.1 = p.1)) with
    | some q => decide (q.2 = p.2)
    | none => false

/-- First value bound to a key in an association list (Python `dict.get`). -/
def assocGet {α : Type} : List (String × α) → String → Option α
  | [], _ => none
  | p :: rest, k => if p.1 = k then some p.2 else assocGet rest k

/-- Replace the first binding of a key, or append it at the end when absent
(the net effect of `dict.setdefault` followed by in-place mutation). -/
def assocSet {α : Type} : List (String × α) → String → α → List (String × α)
  | [], k, v => [(k, v)]
  | p :: rest, k, v => if p.1 = k then (k, v) :: rest else p :: assocSet rest k v

/-- The inner `for nfa_arc in nfa_state.arcs` loop of the worklist body of
`_make_dfas`: labeled arcs accumulate an epsilon closure into the entry of
the label in the `arcs` dictionary. -/
def buildArcsNode (nfa : NFAGraph) (fuel : Nat) :
    List NFAArc → List (String × Finset Nat) → Option (List (String × Finset Nat))
  | [], acc => some acc
  | arc :: rest, acc =>
    match arc.nonterminal_or_string with
    | none => buildArcsNode nfa fuel rest acc
    | some lbl =>
      match addclosure nfa fuel arc.next ((assocGet acc lbl).getD ∅) with
      | none => none
      | some s => buildArcsNode nfa fuel rest (assocSet acc lbl s)

/-- The `for nfa_state in state.nfa_set` loop of `_make_dfas`, building the
label-to-node-set dictionary of one DFA state. -/
def buildArcs (nfa : NFAGraph) (fuel : Nat) :
    List Nat → List (String × Finset Nat) → Option (List (String × Finset Nat))
  | [], acc => some acc
  | node :: rest, acc =>
    match buildArcsNode nfa fuel (nfa.arcsOf node) acc with
    | none => none
    | some acc2 => buildArcs nfa fuel rest acc2

/-- Position of the first state of the list whose `nfa_set` equals the given
set (the `for nested_state in states` dedup scan of `_make_dfas`). -/
def findStateIdx : List DFAState → Finset Nat → Nat → Option Nat
  | [], _, _ => none
  | st :: rest, nset, k =>
    if st.nfa_set = nset then some k else findStateIdx rest nset (k + 1)

/-- The `for nonterminal_or_string, nfa_set in arcs.items()` loop of
`_make_dfas`: for every entry, reuse the state with an identical node set or
append a fresh one, then `add_arc` the label on the state at `idx`. -/
def processEntries (rule : String) (finish : Nat) :
    List (String × Finset Nat) → List DFAState → Nat → Except PErr (List DFAState)
  | [], states, _ => Except.ok states
  | (lbl, nset) :: rest, states, idx =>
    match findStateIdx states nset 0 with
    | some k =>
      match states.get? idx with
      | none => Except.error PErr.indexError
      | some st =>
        match st.add_arc k lbl with
        | Except.error e => Except.error e
        | Except.ok st2 => processEntries rule finish rest (states.set idx st2) idx
    | none =>
      match (states ++ [mkDFAState rule nset finish]).get? idx with
      | none => Except.error PErr.indexError
      | some st =>
        match st.add_arc states.length lbl with
        | Except.error e => Except.error e
        | Except.ok st2 =>
          processEntries rule finish rest
            ((states ++ [mkDFAState rule nset finish]).set idx st2) idx

/-- The `for state in states` worklist loop of `_make_dfas` (the list grows
while it is being iterated); one unit of fuel per processed state.  The
`for nfa_state in state.nfa_set` set iteration visits the member node
identities in ascending order (nodes outside the fragment have no arcs and
contribute nothing). -/
def makeDfasLoop (nfa : NFAGraph) (rule : String) (finish cfuel : Nat) :
    Nat → List DFAState → Nat → Except PErr (List DFAState)
  | 0, _, _ => Except.error PErr.outOfFuel
  | fuel + 1, states, idx =>
    match states.get? idx with
    | none => Except.ok states
    | some st =>
      match buildArcs nfa cfuel ((List.range nfa.n).filter (fun node => decide (node ∈ st.nfa_set))) [] with
      | none => Except.error PErr.outOfFuel
      | some entries =>
        match processEntries rule finish entries states idx with
        | Except.error e => Except.error e
        | Except.ok states2 => makeDfasLoop nfa rule finish cfuel fuel states2 (idx + 1)

/-- Embedding of `_make_dfas`: seed the list with the epsilon closure of
`start`, then run the worklist.  Arc targets of the produced states are
positions in the returned list (their identities). -/
def _make_dfas (fuel : Nat) (nfa : NFAGraph) (start finish : Nat) : Except PErr (List DFAState) :=
  match addclosure nfa fuel start ∅ with
  | none => Except.error PErr.outOfFuel
  | some base_nfa_set =>
    makeDfasLoop nfa nfa.rule finish fuel fuel [mkDFAState nfa.rule base_nfa_set finish] 0

/-- First position `j` at or after the given start position whose state
equals `di` under `dfaEq`; `count` bounds the number of inspected
positions. -/
def findJFrom (dfas : List (Nat × DFAState)) (di : Nat × DFAState) :
    Nat → Nat → Option Nat
  | 0, _ => none
  | count + 1, j =>
    match dfas.get? j with
    | none => none
    | some dj =>
      if dfaEq di.2 dj.2 then some j else findJFrom dfas di count (j + 1)

/-- The `for j in range(i + 1, len(dfas))` scan of `_simplify_dfas`. -/
def findJ (dfas : List (Nat × DFAState)) (i : Nat) : Option Nat :=
  match dfas.get? i with
  | none => none
  | some di => findJFrom dfas di (dfas.length - (i + 1)) (i + 1)

/-- One full `for i, state_i in enumerate(dfas)` pass of `_simplify_dfas`
starting at position `i`: on the first equal partner `j` of `state_i`,
delete position `j`, rewrite every remaining state's arcs from the deleted
identity to `state_i`'s identity, and continue with the next position.  The
Boolean records whether any merge happened (the `changes` flag). -/
def passFromF : Nat → List (Nat × DFAState) → Nat → Option (List (Nat × DFAState) × Bool)
  | 0, _, _ => none
  | fuel + 1, dfas, i =>
    if i < dfas.length then
      match findJ dfas i with
      | some j =>
        match dfas.get? i, dfas.get? j with
        | some di, some dj =>
          let dfas2 := (dfas.eraseIdx j).map fun p => (p.1, p.2.unifystate dj.1 di.1)
          match passFromF fuel dfas2 (i + 1) with
          | none => none
          | some (res, _) => some (res, true)
        | _, _ => none
      | none => passFromF fuel dfas (i + 1)
    else some (dfas, false)

/-- Embedding of `_simplify_dfas`: repeat full passes while a pass performed
a merge; stop at the first pass with zero merges.  States are paired with
their identities (original positions), which arc targets refer to. -/
def _simplify_dfas : Nat → List (Nat × DFAState) → Option (List (Nat × DFAState))
  | 0, _ => none
  | fuel + 1, dfas =>
    match passFromF (dfas.length + 1) dfas 0 with
    | none => none
    | some (d, false) => some d
    | some (d, true) => _simplify_dfas fuel d

/-- A compiled transition key: a token-category identifier resolved from the
token namespace, or the identity (interning-table index) of a
`ReservedString` object. -/
inductive TransitionKey where
  | token : Nat → TransitionKey
  | reserved : Nat → TransitionKey
deriving DecidableEq

/-- Embedding of `DFAPlan`: the instruction wrapping the target DFA state of
a terminal transition. -/
structure DFAPlan where
  next_dfa : Nat
deriving DecidableEq

/-- Position of the first occurrence of a value in the interning table
(Python dictionary lookup by literal value); `k` is the position of the
list's head. -/
def valueIndex : List String → String → Nat → Option Nat
  | [], _, _ => none
  | v :: rest, value, k => if v = value then some k else valueIndex rest value (k + 1)

/-- Whether the label starts with three identical quote characters
(`label.startswith('"""') or label.startswith("'''")`). -/
def isTripleQuoted (label : String) : Bool :=
  match label.toList with
  | a :: b :: c :: _ =>
    (a = '"' && b = '"' && c = '"') || (a = '\'' && b = '\'' && c = '\'')
  | _ => false

/-- Embedding of `_make_transition`.  `token_namespace` models `getattr`
over the token module (`none` raises `AttributeError`); `litEval` models
`ast.literal_eval` (`none` raises `ValueError`).  The reserved-string
interning table is a list of literal values, an object's identity being its
index; the result returns the possibly extended table. -/
def _make_transition (token_namespace : String → Option Nat)
    (litEval : String → Option String) (reserved_syntax_strings : List String)
    (label : String) : Except PErr (TransitionKey × List String) :=
  match label.toList with
  | [] => Except.error PErr.indexError
  | c :: _ =>
    if c.isAlpha then
      match token_namespace label with
      | some t => Except.ok (TransitionKey.token t, reserved_syntax_strings)
      | none => Except.error PErr.attributeError
    else if c = '"' ∨ c = '\'' then
      if isTripleQuoted label then Except.error PErr.assertTriple
      else
        match litEval label with
        | none => Except.error PErr.valueError
        | some value =>
          match valueIndex reserved_syntax_strings value 0 with
          | some i => Except.ok (TransitionKey.reserved i, reserved_syntax_strings)
          | none =>
            Except.ok (TransitionKey.reserved reserved_syntax_strings.length,
              reserved_syntax_strings ++ [value])
    else Except.error PErr.assertQuote

/-- Relation between an arc label and the transition key compiled for it,
read against a reserved-string table: an alphabetic label resolves through
the token namespace, and any other label unescapes to the literal value
stored at the key's index of the table. -/
def keyMatches (token_namespace : String → Option Nat) (litEval : String → Option String)
    (res : List String) (label : String) (key : TransitionKey) : Prop :=
  (∃ c rest t, label.toList = c :: rest ∧ c.isAlpha = true ∧
    token_namespace label = some t ∧ key = TransitionKey.token t) ∨
  (∃ v i, litEval label = some v ∧ key = TransitionKey.reserved i ∧
    res.get? i = some v)

/-- A DFA state after the transition-compilation pass: the surviving state
with its identity, the nonterminal-transition view, and the terminal
transition table mapping compiled keys to plans. -/
structure CompiledState where
  id : Nat
  state : DFAState
  nonterminal_arcs : List (String × Nat)
  ilabel_to_plan : List (TransitionKey × DFAPlan)
deriving DecidableEq

/-- How a compiled state relates to the minimized state it was built from:
same identity and state, the nonterminal view holds exactly the arcs whose
label is a rule name, and the plans list the remaining arcs in order, each
key matching its label against the table `res` and each plan wrapping the
arc's target. -/
def compiledStateMatches (ruleKeys : List String)
    (token_namespace : String → Option Nat) (litEval : String → Option String)
    (res : List String) (p : Nat × DFAState) (cs : CompiledState) : Prop :=
  cs.id = p.1 ∧ cs.state = p.2 ∧
  cs.nonterminal_arcs = p.2.arcs.filter (fun a => decide (a.1 ∈ ruleKeys)) ∧
  List.Forall₂ (fun (a : String × Nat) (q : TransitionKey × DFAPlan) =>
    q.2 = DFAPlan.mk a.2 ∧ keyMatches token_namespace litEval res a.1 q.1)
    (p.2.arcs.filter (fun a => decide (a.1 ∉ ruleKeys))) cs.ilabel_to_plan

/-- Embedding of the `Grammar` object returned by `generate_grammar`. -/
structure Grammar where
  start_nonterminal : Option String
  rule_to_dfas : List (String × List CompiledState)
  reserved_syntax_strings : List String
deriving DecidableEq

/-- One `(nfa_a, nfa_z)` pair yielded by the external grammar parser: the
fragment's graph with its start and finish node identities. -/
structure Fragment where
  nfa : NFAGraph
  start : Nat
  finish : Nat
deriving DecidableEq

/-- The first phase of `generate_grammar`: per rule, build and minimize the
DFA list and store it under the rule name (dictionary update), recording the
first rule as the start nonterminal. -/
def buildRules : List Fragment → List (String × List (Nat × DFAState)) → Option String →
    Except PErr (List (String × List (Nat × DFAState)) × Option String)
  | [], acc, start => Except.ok (acc, start)
  | frag :: rest, acc, start =>
    match _make_dfas (2 ^ frag.nfa.n + frag.nfa.n + 1) frag.nfa frag.start frag.finish with
    | Except.error e => Except.error e
    | Except.ok dfas =>
      match _simplify_dfas (dfas.length + 1) dfas.enum with
      | none => Except.error PErr.outOfFuel
      | some simplified =>
        buildRules rest (assocSet acc frag.nfa.rule simplified)
          (match start with
           | none => some frag.nfa.rule
           | some s => some s)

/-- The innermost loop of the transition-compilation pass: classify each arc
of one state as a nonterminal arc (its label is a key of the complete rule
table) or compile it through `_make_transition` into a keyed plan. -/
def compileArcs (ruleKeys : List String) (token_namespace : String → Option Nat)
    (litEval : String → Option String) :
    List (String × Nat) → List (String × Nat) → List (TransitionKey × DFAPlan) →
    List String →
    Except PErr (List (String × Nat) × List (TransitionKey × DFAPlan) × List String)
  | [], nta, plans, res => Except.ok (nta, plans, res)
  | (label, next_) :: rest, nta, plans, res =>
    if label ∈ ruleKeys then
      compileArcs ruleKeys token_namespace litEval rest (nta ++ [(label, next_)]) plans res
    else
      match _make_transition token_namespace litEval res label with
      | Except.error e => Except.error e
      | Except.ok (key, res2) =>
        compileArcs ruleKeys token_namespace litEval rest nta
          (plans ++ [(key, DFAPlan.mk next_)]) res2

/-- The `for dfa_state in dfas` loop of the transition-compilation pass. -/
def compileStates (ruleKeys : List String) (token_namespace : String → Option Nat)
    (litEval : String → Option String) :
    List (Nat × DFAState) → List CompiledState → List String →
    Except PErr (List CompiledState × List String)
  | [], acc, res => Except.ok (acc, res)
  | (id, st) :: rest, acc, res =>
    match compileArcs ruleKeys token_namespace litEval st.arcs [] [] res with
    | Except.error e => Except.error e
    | Except.ok (nta, plans, res2) =>
      compileStates ruleKeys token_namespace litEval rest
        (acc ++ [CompiledState.mk id st nta plans]) res2

/-- The `for nonterminal, dfas in rule_to_dfas.items()` loop of the
transition-compilation pass, threading the interning table through the whole
grammar. -/
def compileRules (ruleKeys : List String) (token_namespace : String → Option Nat)
    (litEval : String → Option String) :
    List (String × List (Nat × DFAState)) → List (String × List CompiledState) →
    List String →
    Except PErr (List (String × List CompiledState) × List String)
  | [], acc, res => Except.ok (acc, res)
  | (name, dfas) :: rest, acc, res =>
    match compileStates ruleKeys token_namespace litEval dfas [] res with
    | Except.error e => Except.error e
    | Except.ok (cs, res2) =>
      compileRules ruleKeys token_namespace litEval rest (acc ++ [(name, cs)]) res2

/-- Embedding of `generate_grammar`: phase one builds and minimizes every
rule's DFA list; phase two, over the complete rule table, compiles all
transitions and interns the reserved strings grammar-wide. -/
def generate_grammar (frags : List Fragment) (token_namespace : String → Option Nat)
    (litEval : String → Option String) : Except PErr Grammar :=
  match buildRules frags [] none with
  | Except.error e => Except.error e
  | Except.ok (rules, start) =>
    match compileRules (rules.map Prod.fst) token_namespace litEval rules [] [] with
    | Except.error e => Except.error e
    | Except.ok (compiled, reserved) => Except.ok (Grammar.mk start compiled reserved)

/-- A hand-built two-node self-looping fragment: node 0 carries a labeled
arc back to itself and an epsilon arc to the finish node 1. -/
def loopNFA : NFAGraph :=
  NFAGraph.mk "loop" [[NFAArc.mk (some "a") 0, NFAArc.mk none 1], []]

/-- The DFA list `_make_dfas` produces for `loopNFA`: a single final state
whose labeled arc loops back to itself. -/
def loopStates : List DFAState := [DFAState.mk "loop" {1, 0} true [("a", 0)]]

/-- Two structurally identical final states, as input for the minimizer. -/
def dupDfas : List (Nat × DFAState) :=
  [(0, DFAState.mk "r" {0} true []), (1, DFAState.mk "r" {0} true [])]

/-- The result of minimizing `dupDfas`: the duplicate is merged away. -/
def dupMerged : List (Nat × DFAState) := [(0, DFAState.mk "r" {0} true [])]

/-- A one-rule fragment whose start node carries two quoted terminal labels
that unescape to the same literal value. -/
def ifNFA : NFAGraph :=
  NFAGraph.mk "r" [[NFAArc.mk (some "\"if\"") 1, NFAArc.mk (some "\"IF\"") 1], []]

/-- A token namespace resolving every name to category 0. -/
def exTokens : String → Option Nat := fun _ => some 0

/-- A token namespace resolving no name at all. -/
def noTokens : String → Option Nat := fun _ => none

/-- A literal unescaper sending both example labels to the value `if`. -/
def exLitEval : String → Option String :=
  fun l => if l = "\"if\"" ∨ l = "\"IF\"" then some "if" else none

/-- A triple-quoted example label. -/
def tripleQ : String := "\"\"\"x\"\"\""

/-- The first compiled state of the grammar built from `ifNFA`. -/
def ifCs0 : CompiledState :=
  CompiledState.mk 0 (DFAState.mk "r" {0} false [("\"if\"", 1), ("\"IF\"", 1)]) []
    [(TransitionKey.reserved 0, DFAPlan.mk 1), (TransitionKey.reserved 0, DFAPlan.mk 1)]

/-- The second compiled state of the grammar built from `ifNFA`. -/
def ifCs1 : CompiledState :=
  CompiledState.mk 1 (DFAState.mk "r" {1} true []) [] []

/-- The compiled grammar of the one-rule fragment `ifNFA`. -/
def ifGrammar : Grammar :=
  Grammar.mk (some "r") [("r", [ifCs0, ifCs1])] ["if"]

/-- One merge of `_simplify_dfas`, as performed when the pair scan finds two
equal states: the state at the later position `j` is deleted and, in every
remaining state, arcs targeting the deleted state's identity are rewritten to
the identity of the state at position `i`. -/
def mergeStep (d d2 : List (Nat × DFAState)) : Prop :=
  ∃ i j di dj, i < j ∧ d.get? i = some di ∧ d.get? j = some dj ∧
    dfaEq di.2 dj.2 = true ∧
    d2 = (d.eraseIdx j).map fun p => (p.1, p.2.unifystate dj.1 di.1)

/-! ### Lemmas about the epsilon closure -/

/-- Epsilon saturation: every unlabeled arc leaving `y` stays inside `R`. -/
def epsSat (nfa : NFAGraph) (R : Finset Nat) (y : Nat) : Prop :=
  ∀ arc ∈ nfa.arcsOf y, arc.nonterminal_or_string = none → arc.next ∈ R

theorem epsSat_mono {nfa : NFAGraph} {R R2 : Finset Nat} {y : Nat}
    (h : epsSat nfa R y) (hsub : R ⊆ R2) : epsSat nfa R2 y :=
  fun arc hm he => hsub (h arc hm he)

theorem closureArcs_subset (next : Nat → Finset Nat → Option (Finset Nat))
    (ih : ∀ node base R, next node base = some R → base ⊆ R) :
    ∀ (l : List NFAArc) (base R : Finset Nat),
      closureArcs next l base = some R → base ⊆ R := by
  intro l
  induction l with
  | nil =>
    intro base R h
    simp only [closureArcs] at h
    cases h
    exact Finset.Subset.refl _
  | cons arc rest ihl =>
    intro base R h
    simp only [closureArcs] at h
    split at h
    · cases hc : next arc.next base with
      | none => rw [hc] at h; cases h
      | some base2 =>
        rw [hc] at h
        exact (ih _ _ _ hc).trans (ihl _ _ h)
    · exact ihl _ _ h

theorem addclosure_subset_mem :
    ∀ (fuel : Nat) (nfa : NFAGraph) (node : Nat) (base R : Finset Nat),
      addclosure nfa fuel node base = some R → base ⊆ R ∧ node ∈ R := by
  intro fuel
  induction fuel with
  | zero => intro nfa node base R h; simp [addclosure] at h
  | succ f ih =>
    intro nfa node base R h
    simp only [addclosure] at h
    split at h
    · cases h
      exact ⟨Finset.Subset.refl _, by assumption⟩
    · have hsub := closureArcs_subset (addclosure nfa f) (fun n b r hh => (ih nfa n b r hh).1) _ _ _ h
      refine ⟨(Finset.subset_insert _ _).trans hsub, hsub (Finset.mem_insert_self _ _)⟩

theorem arcsOf_mem_wf {nfa : NFAGraph} (hwf : nfa.WF) {node : Nat} (hn : node < nfa.n) :
    ∀ a ∈ nfa.arcsOf node, a.next < nfa.n := by
  intro a ha
  have hget : nfa.arcs.getD node [] = nfa.arcs.get ⟨node, hn⟩ := by
    simp [List.getD_eq_getElem?_getD, List.getElem?_eq_getElem hn]
  rw [NFAGraph.arcsOf, hget] at ha
  exact hwf _ (nfa.arcs.get_mem _ _) a ha

theorem closureArcs_range (nfa : NFAGraph) (next : Nat → Finset Nat → Option (Finset Nat))
    (ih : ∀ node base R, next node base = some R →
      node < nfa.n → base ⊆ Finset.range nfa.n → R ⊆ Finset.range nfa.n) :
    ∀ (l : List NFAArc) (base R : Finset Nat),
      closureArcs next l base = some R →
      (∀ a ∈ l, a.nonterminal_or_string = none → a.next < nfa.n) →
      base ⊆ Finset.range nfa.n → R ⊆ Finset.range nfa.n := by
  intro l
  induction l with
  | nil =>
    intro base R h _ hb
    simp only [closureArcs] at h
    cases h
    exact hb
  | cons arc rest ihl =>
    intro base R h hl hb
    simp only [closureArcs] at h
    split at h
    · cases hc : next arc.next base with
      | none => rw [hc] at h; cases h
      | some base2 =>
        rw [hc] at h
        have hnext : arc.next < nfa.n := hl arc (List.mem_cons_self _ _) (by assumption)
        have h2 : base2 ⊆ Finset.range nfa.n := ih _ _ _ hc hnext hb
        exact ihl _ _ h (fun a ha he => hl a (List.mem_cons_of_mem _ ha) he) h2
    · exact ihl _ _ h (fun a ha he => hl a (List.mem_cons_of_mem _ ha) he) hb

theorem addclosure_range {nfa : NFAGraph} (hwf : nfa.WF) :
    ∀ (fuel : Nat) (node : Nat) (base R : Finset Nat),
      addclosure nfa fuel node base = some R →
      node < nfa.n → base ⊆ Finset.range nfa.n → R ⊆ Finset.range nfa.n := by
  intro fuel
  induction fuel with
  | zero => intro node base R h; simp [addclosure] at h
  | succ f ih =>
    intro node base R h hn hb
    simp only [addclosure] at h
    split at h
    · cases h; exact hb
    · exact closureArcs_range nfa (addclosure nfa f) ih _ _ _ h
        (fun a ha _ => arcsOf_mem_wf hwf hn a ha)
        (Finset.insert_subset (Finset.mem_range.mpr hn) hb)

theorem closureArcs_sat (nfa : NFAGraph) (next : Nat → Finset Nat → Option (Finset Nat))
    (ih : ∀ node base R, next node base = some R →
      ∀ y ∈ R, y ∈ base ∨ epsSat nfa R y)
    (ihsub : ∀ node base R, next node base = some R → base ⊆ R ∧ node ∈ R) :
    ∀ (l : List NFAArc) (base R : Finset Nat),
      closureArcs next l base = some R →
      (∀ y ∈ R, y ∈ base ∨ epsSat nfa R y) ∧
      (∀ arc ∈ l, arc.nonterminal_or_string = none → arc.next ∈ R) := by
  intro l
  induction l with
  | nil =>
    intro base R h
    simp only [closureArcs] at h
    cases h
    exact ⟨fun y hy => Or.inl hy, fun arc ha => absurd ha (List.not_mem_nil _)⟩
  | cons arc rest ihl =>
    intro base R h
    simp only [closureArcs] at h
    split at h
    · cases hc : next arc.next base with
      | none => rw [hc] at h; cases h
      | some base2 =>
        rw [hc] at h
        have hsub2 : base2 ⊆ R :=
          closureArcs_subset next (fun n b r hh => (ihsub n b r hh).1)
            _ _ _ h
        obtain ⟨hsat2, harcs2⟩ := ihl _ _ h
        refine ⟨?_, ?_⟩
        · intro y hy
          rcases hsat2 y hy with hy2 | hy2
          · rcases ih _ _ _ hc y hy2 with hy3 | hy3
            · exact Or.inl hy3
            · exact Or.inr (epsSat_mono hy3 hsub2)
          · exact Or.inr hy2
        · intro a ha he
          rcases List.mem_cons.mp ha with rfl | ha
          · exact hsub2 (ihsub _ _ _ hc).2
          · exact harcs2 a ha he
    · obtain ⟨hsat2, harcs2⟩ := ihl _ _ h
      refine ⟨hsat2, ?_⟩
      intro a ha he
      rcases List.mem_cons.mp ha with rfl | ha
      · exact absurd he (by assumption)
      · exact harcs2 a ha he

theorem addclosure_sat :
    ∀ (fuel : Nat) (nfa : NFAGraph) (node : Nat) (base R : Finset Nat),
      addclosure nfa fuel node base = some R →
      ∀ y ∈ R, y ∈ base ∨ epsSat nfa R y := by
  intro fuel
  induction fuel with
  | zero => intro nfa node base R h; simp [addclosure] at h
  | succ f ih =>
    intro nfa node base R h y hy
    simp only [addclosure] at h
    split at h
    · cases h; exact Or.inl hy
    · obtain ⟨hsat, harcs⟩ := closureArcs_sat nfa (addclosure nfa f) (ih nfa)
        (addclosure_subset_mem f nfa) _ _ _ h
      rcases hsat y hy with hy2 | hy2
      · rcases Finset.mem_insert.mp hy2 with rfl | hy3
        · exact Or.inr (fun arc ha he => harcs arc ha he)
        · exact Or.inl hy3
      · exact Or.inr hy2

theorem closureArcs_sound (nfa : NFAGraph) (next : Nat → Finset Nat → Option (Finset Nat))
    (ih : ∀ node base R, next node base = some R →
      ∀ y ∈ R, y ∈ base ∨ Relation.ReflTransGen (epsStep nfa) node y) :
    ∀ (l : List NFAArc) (base R : Finset Nat),
      closureArcs next l base = some R →
      ∀ y ∈ R, y ∈ base ∨ ∃ arc ∈ l, arc.nonterminal_or_string = none ∧
        Relation.ReflTransGen (epsStep nfa) arc.next y := by
  intro l
  induction l with
  | nil =>
    intro base R h y hy
    simp only [closureArcs] at h
    cases h
    exact Or.inl hy
  | cons arc rest ihl =>
    intro base R h y hy
    simp only [closureArcs] at h
    split at h
    · cases hc : next arc.next base with
      | none => rw [hc] at h; cases h
      | some base2 =>
        rw [hc] at h
        rcases ihl _ _ h y hy with hy2 | ⟨a, ha, he, hr⟩
        · rcases ih _ _ _ hc y hy2 with hy3 | hy3
          · exact Or.inl hy3
          · exact Or.inr ⟨arc, List.mem_cons_self _ _, by assumption, hy3⟩
        · exact Or.inr ⟨a, List.mem_cons_of_mem _ ha, he, hr⟩
    · rcases ihl _ _ h y hy with hy2 | ⟨a, ha, he, hr⟩
      · exact Or.inl hy2
      · exact Or.inr ⟨a, List.mem_cons_of_mem _ ha, he, hr⟩

theorem addclosure_sound :
    ∀ (fuel : Nat) (nfa : NFAGraph) (node : Nat) (base R : Finset Nat),
      addclosure nfa fuel node base = some R →
      ∀ y ∈ R, y ∈ base ∨ Relation.ReflTransGen (epsStep nfa) node y := by
  intro fuel
  induction fuel with
  | zero => intro nfa node base R h; simp [addclosure] at h
  | succ f ih =>
    intro nfa node base R h y hy
    simp only [addclosure] at h
    split at h
    · cases h; exact Or.inl hy
    · rcases closureArcs_sound nfa (addclosure nfa f) (ih nfa) _ _ _ h y hy with hy2 | ⟨a, ha, he, hr⟩
      · rcases Finset.mem_insert.mp hy2 with rfl | hy3
        · exact Or.inr Relation.ReflTransGen.refl
        · exact Or.inl hy3
      · exact Or.inr (Relation.ReflTransGen.head ⟨a, ha, he, rfl⟩ hr)

/-- On success from the empty set, `addclosure` computes exactly the
epsilon closure of its node. -/
theorem addclosure_eq_epsClosure {nfa : NFAGraph} {fuel node : Nat} {R : Finset Nat}
    (h : addclosure nfa fuel node ∅ = some R) : ↑R = epsClosure nfa node := by
  apply Set.eq_of_subset_of_subset
  · intro y hy
    rcases addclosure_sound fuel nfa node ∅ R h y (by simpa using hy) with hy2 | hy2
    · simp at hy2
    · exact hy2
  · intro y hy
    have hmem : node ∈ R := (addclosure_subset_mem fuel nfa node ∅ R h).2
    simp only [Finset.coe_insert, Set.mem_setOf_eq, epsClosure] at hy ⊢
    induction hy with
    | refl => simpa using hmem
    | tail hstep harc ihy =>
      rename_i b c
      have hb : b ∈ R := by simpa using ihy
      rcases addclosure_sat fuel nfa node ∅ R h b hb with hb2 | hb2
      · simp at hb2
      · obtain ⟨arc, haa, he, hn⟩ := harc
        simpa using hn ▸ hb2 arc haa he

theorem closureArcs_fuel {nfa : NFAGraph} (_hwf : nfa.WF) (fuel : Nat)
    (next : Nat → Finset Nat → Option (Finset Nat))
    (ih : ∀ node base, node < nfa.n → base ⊆ Finset.range nfa.n →
      nfa.n + 1 ≤ fuel + base.card → (next node base).isSome)
    (ihsub : ∀ node base R, next node base = some R → base ⊆ R)
    (ihrange : ∀ node base R, next node base = some R →
      node < nfa.n → base ⊆ Finset.range nfa.n → R ⊆ Finset.range nfa.n) :
    ∀ (l : List NFAArc) (base : Finset Nat),
      (∀ a ∈ l, a.nonterminal_or_string = none → a.next < nfa.n) →
      base ⊆ Finset.range nfa.n →
      nfa.n + 1 ≤ fuel + base.card →
      (closureArcs next l base).isSome := by
  intro l
  induction l with
  | nil => intro base _ _ _; simp [closureArcs]
  | cons arc rest ihl =>
    intro base hl hb hfuel
    simp only [closureArcs]
    split
    · have hnext : arc.next < nfa.n := hl arc (List.mem_cons_self _ _) (by assumption)
      have h1 := ih arc.next base hnext hb hfuel
      cases hc : next arc.next base with
      | none => rw [hc] at h1; simp at h1
      | some base2 =>
        simp only
        have hsub : base ⊆ base2 := ihsub _ _ _ hc
        have hr : base2 ⊆ Finset.range nfa.n := ihrange _ _ _ hc hnext hb
        exact ihl base2 (fun a ha he => hl a (List.mem_cons_of_mem _ ha) he) hr
          (le_trans hfuel (by have := Finset.card_le_card hsub; omega))
    · exact ihl base (fun a ha he => hl a (List.mem_cons_of_mem _ ha) he) hb hfuel

theorem addclosure_fuel {nfa : NFAGraph} (hwf : nfa.WF) :
    ∀ (fuel node : Nat) (base : Finset Nat),
      node < nfa.n → base ⊆ Finset.range nfa.n →
      nfa.n + 1 ≤ fuel + base.card →
      (addclosure nfa fuel node base).isSome := by
  intro fuel
  induction fuel with
  | zero =>
    intro node base _ hb hfuel
    have := Finset.card_le_card hb
    rw [Finset.card_range] at this
    omega
  | succ f ih =>
    intro node base hn hb hfuel
    simp only [addclosure]
    split
    · simp
    · apply closureArcs_fuel hwf f (addclosure nfa f) ih
        (fun n b r hh => (addclosure_subset_mem f nfa n b r hh).1)
        (fun n b r hh => addclosure_range hwf f n b r hh)
        _ _ (fun a ha _ => arcsOf_mem_wf hwf hn a ha)
        (Finset.insert_subset (Finset.mem_range.mpr hn) hb)
      rw [Finset.card_insert_of_not_mem (by assumption)]
      omega

/-! ### Lemmas about the powerset construction -/

theorem assocGet_mem {α : Type} :
    ∀ (l : List (String × α)) (k : String) (v : α), assocGet l k = some v → (k, v) ∈ l := by
  intro l
  induction l with
  | nil => intro k v h; simp [assocGet] at h
  | cons p rest ih =>
    intro k v h
    simp only [assocGet] at h
    split at h
    · cases h
      rename_i hk
      have : (k, p.2) = p := by rw [← hk]
      rw [this]
      exact List.mem_cons_self _ _
    · exact List.mem_cons_of_mem _ (ih k v h)

theorem assocSet_mem {α : Type} :
    ∀ (l : List (String × α)) (k : String) (v : α) (p : String × α),
      p ∈ assocSet l k v → p = (k, v) ∨ p ∈ l := by
  intro l
  induction l with
  | nil => intro k v p h; simp [assocSet] at h; exact Or.inl h
  | cons q rest ih =>
    intro k v p h
    simp only [assocSet] at h
    split at h
    · rcases List.mem_cons.mp h with rfl | h2
      · exact Or.inl rfl
      · exact Or.inr (List.mem_cons_of_mem _ h2)
    · rcases List.mem_cons.mp h with rfl | h2
      · exact Or.inr (List.mem_cons_self _ _)
      · rcases ih k v p h2 with h3 | h3
        · exact Or.inl h3
        · exact Or.inr (List.mem_cons_of_mem _ h3)

theorem assocSet_keys {α : Type} :
    ∀ (l : List (String × α)) (k : String) (v : α),
      (assocSet l k v).map Prod.fst = l.map Prod.fst ∨
      (assocSet l k v).map Prod.fst = l.map Prod.fst ++ [k] := by
  intro l
  induction l with
  | nil => intro k v; right; simp [assocSet]
  | cons q rest ih =>
    intro k v
    simp only [assocSet]
    split
    · left
      rename_i hk
      simp [← hk]
    · rcases ih k v with h | h
      · left; simp [h]
      · right; simp [h]

theorem assocSet_keys_nodup {α : Type} :
    ∀ (l : List (String × α)) (k : String) (v : α),
      (l.map Prod.fst).Nodup → ((assocSet l k v).map Prod.fst).Nodup := by
  intro l
  induction l with
  | nil => intro k v _; simp [assocSet]
  | cons q rest ih =>
    intro k v h
    simp only [List.map_cons, List.nodup_cons] at h
    simp only [assocSet]
    split
    · rename_i hk
      simp only [List.map_cons, List.nodup_cons]
      exact ⟨hk ▸ h.1, h.2⟩
    · rename_i hk
      simp only [List.map_cons, List.nodup_cons]
      refine ⟨?_, ih k v h.2⟩
      intro hq
      rcases assocSet_keys rest k v with he | he
      · rw [he] at hq; exact h.1 hq
      · rw [he] at hq
        rcases List.mem_append.mp hq with hq2 | hq2
        · exact h.1 hq2
        · exact hk (List.mem_singleton.mp hq2)

theorem buildArcsNode_keys_nodup (nfa : NFAGraph) (fuel : Nat) :
    ∀ (l : List NFAArc) (acc acc2 : List (String × Finset Nat)),
      buildArcsNode nfa fuel l acc = some acc2 →
      (acc.map Prod.fst).Nodup → (acc2.map Prod.fst).Nodup := by
  intro l
  induction l with
  | nil => intro acc acc2 h hn; simp only [buildArcsNode] at h; cases h; exact hn
  | cons arc rest ih =>
    intro acc acc2 h hn
    simp only [buildArcsNode] at h
    split at h
    · exact ih _ _ h hn
    · split at h
      · cases h
      · exact ih _ _ h (assocSet_keys_nodup _ _ _ hn)

theorem buildArcs_keys_nodup (nfa : NFAGraph) (fuel : Nat) :
    ∀ (nodes : List Nat) (acc acc2 : List (String × Finset Nat)),
      buildArcs nfa fuel nodes acc = some acc2 →
      (acc.map Prod.fst).Nodup → (acc2.map Prod.fst).Nodup := by
  intro nodes
  induction nodes with
  | nil => intro acc acc2 h hn; simp only [buildArcs] at h; cases h; exact hn
  | cons node rest ih =>
    intro acc acc2 h hn
    simp only [buildArcs] at h
    split at h
    · cases h
    · rename_i acc1 he
      exact ih _ _ h (buildArcsNode_keys_nodup nfa fuel _ _ _ he hn)

theorem buildArcsNode_range {nfa : NFAGraph} (hwf : nfa.WF) (fuel : Nat) :
    ∀ (l : List NFAArc) (acc acc2 : List (String × Finset Nat)),
      buildArcsNode nfa fuel l acc = some acc2 →
      (∀ a ∈ l, a.next < nfa.n) →
      (∀ p ∈ acc, p.2 ⊆ Finset.range nfa.n) →
      ∀ p ∈ acc2, p.2 ⊆ Finset.range nfa.n := by
  intro l
  induction l with
  | nil => intro acc acc2 h _ hr; simp only [buildArcsNode] at h; cases h; exact hr
  | cons arc rest ih =>
    intro acc acc2 h hl hr
    simp only [buildArcsNode] at h
    split at h
    · exact ih _ _ h (fun a ha => hl a (List.mem_cons_of_mem _ ha)) hr
    · rename_i lbl hlbl
      split at h
      · cases h
      · rename_i s hs
        apply ih _ _ h (fun a ha => hl a (List.mem_cons_of_mem _ ha))
        intro p hp
        rcases assocSet_mem _ _ _ _ hp with rfl | hp2
        · have hbase : (assocGet acc lbl).getD ∅ ⊆ Finset.range nfa.n := by
            cases hg : assocGet acc lbl with
            | none => simp
            | some v => simpa using hr _ (assocGet_mem _ _ _ hg)
          exact addclosure_range hwf fuel _ _ _ hs
            (hl arc (List.mem_cons_self _ _)) hbase
        · exact hr p hp2

theorem buildArcs_range {nfa : NFAGraph} (hwf : nfa.WF) (fuel : Nat) :
    ∀ (nodes : List Nat) (acc acc2 : List (String × Finset Nat)),
      buildArcs nfa fuel nodes acc = some acc2 →
      (∀ node ∈ nodes, node < nfa.n) →
      (∀ p ∈ acc, p.2 ⊆ Finset.range nfa.n) →
      ∀ p ∈ acc2, p.2 ⊆ Finset.range nfa.n := by
  intro nodes
  induction nodes with
  | nil => intro acc acc2 h _ hr; simp only [buildArcs] at h; cases h; exact hr
  | cons node rest ih =>
    intro acc acc2 h hl hr
    simp only [buildArcs] at h
    split at h
    · cases h
    · rename_i acc1 he
      exact ih _ _ h (fun a ha => hl a (List.mem_cons_of_mem _ ha))
        (buildArcsNode_range hwf fuel _ _ _ he
          (arcsOf_mem_wf hwf (hl node (List.mem_cons_self _ _))) hr)

theorem buildArcsNode_fuel {nfa : NFAGraph} (hwf : nfa.WF) (fuel : Nat)
    (hfuel : nfa.n + 1 ≤ fuel) :
    ∀ (l : List NFAArc) (acc : List (String × Finset Nat)),
      (∀ a ∈ l, a.next < nfa.n) →
      (∀ p ∈ acc, p.2 ⊆ Finset.range nfa.n) →
      (buildArcsNode nfa fuel l acc).isSome := by
  intro l
  induction l with
  | nil => intro acc _ _; simp [buildArcsNode]
  | cons arc rest ih =>
    intro acc hl hr
    simp only [buildArcsNode]
    split
    · exact ih _ (fun a ha => hl a (List.mem_cons_of_mem _ ha)) hr
    · rename_i lbl hlbl
      have hbase : (assocGet acc lbl).getD ∅ ⊆ Finset.range nfa.n := by
        cases hg : assocGet acc lbl with
        | none => simp
        | some v => simpa using hr _ (assocGet_mem _ _ _ hg)
      have hsome := addclosure_fuel hwf fuel arc.next _
        (hl arc (List.mem_cons_self _ _)) hbase (by omega)
      cases hs : addclosure nfa fuel arc.next ((assocGet acc lbl).getD ∅) with
      | none => rw [hs] at hsome; simp at hsome
      | some s =>
        apply ih _ (fun a ha => hl a (List.mem_cons_of_mem _ ha))
        intro p hp
        rcases assocSet_mem _ _ _ _ hp with rfl | hp2
        · exact addclosure_range hwf fuel _ _ _ hs (hl arc (List.mem_cons_self _ _)) hbase
        · exact hr p hp2

theorem buildArcs_fuel {nfa : NFAGraph} (hwf : nfa.WF) (fuel : Nat)
    (hfuel : nfa.n + 1 ≤ fuel) :
    ∀ (nodes : List Nat) (acc : List (String × Finset Nat)),
      (∀ node ∈ nodes, node < nfa.n) →
      (∀ p ∈ acc, p.2 ⊆ Finset.range nfa.n) →
      (buildArcs nfa fuel nodes acc).isSome := by
  intro nodes
  induction nodes with
  | nil => intro acc _ _; simp [buildArcs]
  | cons node rest ih =>
    intro acc hl hr
    simp only [buildArcs]
    have h1 := buildArcsNode_fuel hwf fuel hfuel (nfa.arcsOf node) acc
      (arcsOf_mem_wf hwf (hl node (List.mem_cons_self _ _))) hr
    cases he : buildArcsNode nfa fuel (nfa.arcsOf node) acc with
    | none => rw [he] at h1; simp at h1
    | some acc1 =>
      exact ih _ (fun a ha => hl a (List.mem_cons_of_mem _ ha))
        (buildArcsNode_range hwf fuel _ _ _ he
          (arcsOf_mem_wf hwf (hl node (List.mem_cons_self _ _))) hr)

theorem findStateIdx_none :
    ∀ (states : List DFAState) (nset : Finset Nat) (k : Nat),
      findStateIdx states nset k = none → ∀ st ∈ states, st.nfa_set ≠ nset := by
  intro states
  induction states with
  | nil => intro nset k _ st hst; cases hst
  | cons s rest ih =>
    intro nset k h st hst
    simp only [findStateIdx] at h
    split at h
    · cases h
    · rcases List.mem_cons.mp hst with rfl | hst2
      · assumption
      · exact ih nset (k + 1) h st hst2


theorem processEntries_spec (rule : String) (finish : Nat) :
    ∀ (entries : List (String × Finset Nat)) (states out : List DFAState) (idx : Nat),
      processEntries rule finish entries states idx = Except.ok out →
      idx < states.length →
      states.length ≤ out.length ∧
      (∀ k, k < states.length → k ≠ idx → out.get? k = states.get? k) ∧
      (∀ st, states.get? idx = some st → ∃ st2, out.get? idx = some st2 ∧
        st2.nfa_set = st.nfa_set ∧ st2.is_final = st.is_final ∧
        st2.from_rule = st.from_rule ∧
        st2.arcs.map Prod.fst = st.arcs.map Prod.fst ++ entries.map Prod.fst) ∧
      (∀ k, states.length ≤ k → ∀ st2, out.get? k = some st2 →
        ∃ e ∈ entries, st2 = mkDFAState rule e.2 finish) := by
  intro entries
  induction entries with
  | nil =>
    intro states out idx h hidx
    simp only [processEntries] at h
    cases h
    refine ⟨le_refl _, fun k _ _ => rfl,
      fun st hst => ⟨st, hst, rfl, rfl, rfl, by simp⟩, ?_⟩
    intro k hk st2 hst2
    rw [List.get?_eq_none.mpr hk] at hst2
    cases hst2
  | cons e rest ih =>
    obtain ⟨lbl, nset⟩ := e
    intro states out idx h hidx
    simp only [processEntries] at h
    split at h
    · -- found an existing state with the same nfa_set, at position kf
      rename_i kf hfind
      cases hget : states.get? idx with
      | none =>
        rw [List.get?_eq_none] at hget
        omega
      | some st =>
        rw [hget] at h
        split at h
        · cases h
        · rename_i st2x hnm
          injection hnm with hnme
          subst hnme
          split at h
          · cases h
          · rename_i st2y ho
            rw [DFAState.add_arc] at ho
            split at ho
            · cases ho
            · rename_i hmem
              injection ho with hoe
              subst hoe
              have hlen2 : (states.set idx
                  { st with arcs := st.arcs ++ [(lbl, kf)] }).length = states.length :=
                List.length_set _ _ _
              obtain ⟨ha, hb, hc, hd⟩ := ih _ out idx h (by omega)
              refine ⟨by omega, ?_, ?_, ?_⟩
              · intro k2 hk2 hk2ne
                rw [hb k2 (by omega) hk2ne, List.get?_set_ne _ _ (Ne.symm hk2ne)]
              · intro st0 hst0
                have hst0e : st0 = st := by
                  cases hst0
                  rfl
                subst hst0e
                have hset : (states.set idx
                    { st0 with arcs := st0.arcs ++ [(lbl, kf)] }).get? idx =
                    some { st0 with arcs := st0.arcs ++ [(lbl, kf)] } := by
                  rw [List.get?_set_eq, hget]
                  rfl
                obtain ⟨st3, h3, h3a, h3b, h3c, h3d⟩ := hc _ hset
                refine ⟨st3, h3, h3a, h3b, h3c, ?_⟩
                rw [h3d]
                simp
              · intro k2 hk2 st3 h3
                obtain ⟨e2, he2, he2b⟩ := hd k2 (by omega) st3 h3
                exact ⟨e2, List.mem_cons_of_mem _ he2, he2b⟩
    · -- no state with this nfa_set: append a fresh one at position states.length
      rename_i hfind
      cases hget : (states ++ [mkDFAState rule nset finish]).get? idx with
      | none =>
        rw [List.get?_eq_none] at hget
        simp at hget
        omega
      | some st =>
        rw [hget] at h
        have hget2 : states.get? idx = some st := by
          rw [← hget, List.get?_append hidx]
        split at h
        · cases h
        · rename_i st2x hnm
          injection hnm with hnme
          subst hnme
          split at h
          · cases h
          · rename_i st2y ho
            rw [DFAState.add_arc] at ho
            split at ho
            · cases ho
            · rename_i hmem
              injection ho with hoe
              subst hoe
              have hlen2 : ((states ++ [mkDFAState rule nset finish]).set idx
                  { st with arcs := st.arcs ++ [(lbl, states.length)] }).length =
                  states.length + 1 := by
                simp [List.length_set]
              obtain ⟨ha, hb, hc, hd⟩ := ih _ out idx h (by omega)
              refine ⟨by omega, ?_, ?_, ?_⟩
              · intro k2 hk2 hk2ne
                rw [hb k2 (by omega) hk2ne, List.get?_set_ne _ _ (Ne.symm hk2ne),
                  List.get?_append hk2]
              · intro st0 hst0
                have hst0e : st0 = st := by
                  rw [hget2] at hst0
                  cases hst0
                  rfl
                subst hst0e
                have hset : ((states ++ [mkDFAState rule nset finish]).set idx
                    { st0 with arcs := st0.arcs ++ [(lbl, states.length)] }).get? idx =
                    some { st0 with arcs := st0.arcs ++ [(lbl, states.length)] } := by
                  rw [List.get?_set_eq, hget]
                  rfl
                obtain ⟨st3, h3, h3a, h3b, h3c, h3d⟩ := hc _ hset
                refine ⟨st3, h3, h3a, h3b, h3c, ?_⟩
                rw [h3d]
                simp
              · intro k2 hk2 st3 h3
                rcases Nat.lt_or_ge k2 (states.length + 1) with hk2b | hk2b
                · have hk2eq : k2 = states.length := by omega
                  have hne : k2 ≠ idx := by omega
                  rw [hb k2 (by omega) hne, List.get?_set_ne _ _ (Ne.symm hne), hk2eq,
                    List.get?_concat_length] at h3
                  cases h3
                  exact ⟨(lbl, nset), List.mem_cons_self _ _, rfl⟩
                · obtain ⟨e2, he2, he2b⟩ := hd k2 (by omega) st3 h3
                  exact ⟨e2, List.mem_cons_of_mem _ he2, he2b⟩

theorem list_set_same {α : Type} :
    ∀ (l : List α) (i : Nat) (a : α), l.get? i = some a → l.set i a = l := by
  intro l
  induction l with
  | nil => intro i a h; cases h
  | cons x rest ih =>
    intro i a h
    cases i with
    | zero =>
      cases h
      rfl
    | succ j =>
      simp only [List.set]
      rw [ih j a h]

theorem get?_some_lt {α : Type} {l : List α} {i : Nat} {a : α}
    (h : l.get? i = some a) : i < l.length := by
  by_contra hc
  rw [List.get?_eq_none.mpr (by omega)] at h
  cases h

theorem processEntries_nodup (rule : String) (finish : Nat) :
    ∀ (entries : List (String × Finset Nat)) (states out : List DFAState) (idx : Nat),
      processEntries rule finish entries states idx = Except.ok out →
      idx < states.length →
      (states.map (fun st => st.nfa_set)).Nodup →
      (out.map (fun st => st.nfa_set)).Nodup := by
  intro entries
  induction entries with
  | nil =>
    intro states out idx h _ hn
    simp only [processEntries] at h
    cases h
    exact hn
  | cons e rest ih =>
    obtain ⟨lbl, nset⟩ := e
    intro states out idx h hidx hn
    simp only [processEntries] at h
    split at h
    · rename_i kf hfind
      cases hget : states.get? idx with
      | none =>
        rw [List.get?_eq_none] at hget
        omega
      | some st =>
        rw [hget] at h
        split at h
        · cases h
        · rename_i st2x hnm
          injection hnm with hnme
          subst hnme
          split at h
          · cases h
          · rename_i st2y ho
            rw [DFAState.add_arc] at ho
            split at ho
            · cases ho
            · injection ho with hoe
              subst hoe
              apply ih _ out idx h (by simpa using hidx)
              have hmap : (states.set idx
                  { st with arcs := st.arcs ++ [(lbl, kf)] }).map (fun s => s.nfa_set) =
                  states.map (fun s => s.nfa_set) := by
                rw [List.map_set]
                apply list_set_same
                rw [List.get?_map, hget]
                rfl
              rw [hmap]
              exact hn
    · rename_i hfind
      cases hget : (states ++ [mkDFAState rule nset finish]).get? idx with
      | none =>
        rw [List.get?_eq_none] at hget
        simp at hget
        omega
      | some st =>
        rw [hget] at h
        have hget2 : states.get? idx = some st := by
          rw [← hget, List.get?_append hidx]
        split at h
        · cases h
        · rename_i st2x hnm
          injection hnm with hnme
          subst hnme
          split at h
          · cases h
          · rename_i st2y ho
            rw [DFAState.add_arc] at ho
            split at ho
            · cases ho
            · injection ho with hoe
              subst hoe
              apply ih _ out idx h (by simp; omega)
              have hmap : ((states ++ [mkDFAState rule nset finish]).set idx
                  { st with arcs := st.arcs ++ [(lbl, states.length)] }).map
                    (fun s => s.nfa_set) =
                  (states ++ [mkDFAState rule nset finish]).map (fun s => s.nfa_set) := by
                rw [List.map_set]
                apply list_set_same
                rw [List.get?_map, hget]
                rfl
              rw [hmap, List.map_append]
              refine List.Nodup.append hn (by simp) ?_
              intro x hx hx2
              simp only [List.map_cons, List.map_nil, List.mem_singleton] at hx2
              obtain ⟨st3, hst3, hst3b⟩ := List.mem_map.mp hx
              rw [hx2] at hst3b
              exact findStateIdx_none states nset 0 hfind st3 hst3 (by
                simpa [mkDFAState] using hst3b)

theorem processEntries_mem (rule : String) (finish : Nat)
    {entries : List (String × Finset Nat)} {states out : List DFAState} {idx : Nat}
    (h : processEntries rule finish entries states idx = Except.ok out)
    (hidx : idx < states.length) :
    ∀ st2 ∈ out, (∃ st ∈ states, st2.nfa_set = st.nfa_set ∧ st2.is_final = st.is_final) ∨
      ∃ e ∈ entries, st2 = mkDFAState rule e.2 finish := by
  intro st2 hst2
  obtain ⟨k, hk⟩ := List.mem_iff_get?.mp hst2
  obtain ⟨ha, hb, hc, hd⟩ := processEntries_spec rule finish entries states out idx h hidx
  rcases Nat.lt_or_ge k states.length with hlt | hge
  · by_cases hke : k = idx
    · subst hke
      cases hget : states.get? k with
      | none =>
        rw [List.get?_eq_none] at hget
        omega
      | some st =>
        obtain ⟨st3, h3, h3a, h3b, _, _⟩ := hc st hget
        rw [hk] at h3
        cases h3
        exact Or.inl ⟨st, List.get?_mem hget, h3a, h3b⟩
    · rw [hb k hlt hke] at hk
      exact Or.inl ⟨st2, List.get?_mem hk, rfl, rfl⟩
  · exact Or.inr (hd k hge st2 hk)

theorem processEntries_isOk (rule : String) (finish : Nat) :
    ∀ (entries : List (String × Finset Nat)) (states : List DFAState) (idx : Nat),
      idx < states.length →
      (entries.map Prod.fst).Nodup →
      (∀ st, states.get? idx = some st →
        ∀ l ∈ entries.map Prod.fst, l ∉ st.arcs.map Prod.fst) →
      ∃ out, processEntries rule finish entries states idx = Except.ok out := by
  intro entries
  induction entries with
  | nil => intro states idx _ _ _; exact ⟨states, rfl⟩
  | cons e rest ih =>
    obtain ⟨lbl, nset⟩ := e
    intro states idx hidx hnodup hdisj
    cases hfind : findStateIdx states nset 0 with
    | some kf =>
      cases hget : states.get? idx with
      | none =>
        rw [List.get?_eq_none] at hget
        omega
      | some st =>
        have hmem : lbl ∉ st.arcs.map Prod.fst :=
          hdisj st hget lbl (by simp)
        simp only [processEntries, hfind, hget, DFAState.add_arc, if_neg hmem]
        apply ih
        · simpa using hidx
        · simpa using hnodup.of_cons
        · intro st2 hst2 l hl
          have hset : (states.set idx
              { st with arcs := st.arcs ++ [(lbl, kf)] }).get? idx =
              some { st with arcs := st.arcs ++ [(lbl, kf)] } := by
            rw [List.get?_set_eq, hget]
            rfl
          rw [hset] at hst2
          cases hst2
          simp only [List.map_append, List.mem_append]
          rintro (hin | hin)
          · exact hdisj st hget l (by simp [hl]) hin
          · simp only [List.map_cons, List.map_nil, List.mem_singleton] at hin
            subst hin
            simp only [List.map_cons, List.nodup_cons] at hnodup
            exact hnodup.1 hl
    | none =>
      cases hget : (states ++ [mkDFAState rule nset finish]).get? idx with
      | none =>
        rw [List.get?_eq_none] at hget
        simp at hget
        omega
      | some st =>
        have hget2 : states.get? idx = some st := by
          rw [← hget, List.get?_append hidx]
        have hmem : lbl ∉ st.arcs.map Prod.fst :=
          hdisj st hget2 lbl (by simp)
        simp only [processEntries, hfind, hget, DFAState.add_arc, if_neg hmem]
        apply ih
        · simp
          omega
        · simpa using hnodup.of_cons
        · intro st2 hst2 l hl
          have hset : ((states ++ [mkDFAState rule nset finish]).set idx
              { st with arcs := st.arcs ++ [(lbl, states.length)] }).get? idx =
              some { st with arcs := st.arcs ++ [(lbl, states.length)] } := by
            rw [List.get?_set_eq, hget]
            rfl
          rw [hset] at hst2
          cases hst2
          simp only [List.map_append, List.mem_append]
          rintro (hin | hin)
          · exact hdisj st hget2 l (by simp [hl]) hin
          · simp only [List.map_cons, List.map_nil, List.mem_singleton] at hin
            subst hin
            simp only [List.map_cons, List.nodup_cons] at hnodup
            exact hnodup.1 hl

theorem makeDfasLoop_final_inv (nfa : NFAGraph) (rule : String) (finish cfuel : Nat) :
    ∀ (fuel : Nat) (states out : List DFAState) (idx : Nat),
      makeDfasLoop nfa rule finish cfuel fuel states idx = Except.ok out →
      (∀ st ∈ states, st.is_final = decide (finish ∈ st.nfa_set)) →
      ∀ st ∈ out, st.is_final = decide (finish ∈ st.nfa_set) := by
  intro fuel
  induction fuel with
  | zero => intro states out idx h _; cases h
  | succ f ih =>
    intro states out idx h hinv
    cases hget : states.get? idx with
    | none =>
      simp only [makeDfasLoop, hget] at h
      cases h
      exact hinv
    | some st =>
      cases hba : buildArcs nfa cfuel ((List.range nfa.n).filter (fun node => decide (node ∈ st.nfa_set))) [] with
      | none =>
        simp only [makeDfasLoop, hget, hba] at h
        cases h
      | some entries =>
        cases hpe : processEntries rule finish entries states idx with
        | error e =>
          simp only [makeDfasLoop, hget, hba, hpe] at h
          cases h
        | ok states2 =>
          simp only [makeDfasLoop, hget, hba, hpe] at h
          apply ih states2 out (idx + 1) h
          intro st2 hst2
          rcases processEntries_mem rule finish hpe (get?_some_lt hget) st2 hst2 with
            ⟨st3, hst3, ha, hb⟩ | ⟨e2, _, he2⟩
          · rw [ha, hb]
            exact hinv st3 hst3
          · rw [he2]
            rfl

theorem makeDfasLoop_nodup_sets (nfa : NFAGraph) (rule : String) (finish cfuel : Nat) :
    ∀ (fuel : Nat) (states out : List DFAState) (idx : Nat),
      makeDfasLoop nfa rule finish cfuel fuel states idx = Except.ok out →
      (states.map (fun st => st.nfa_set)).Nodup →
      (out.map (fun st => st.nfa_set)).Nodup := by
  intro fuel
  induction fuel with
  | zero => intro states out idx h _; cases h
  | succ f ih =>
    intro states out idx h hinv
    cases hget : states.get? idx with
    | none =>
      simp only [makeDfasLoop, hget] at h
      cases h
      exact hinv
    | some st =>
      cases hba : buildArcs nfa cfuel ((List.range nfa.n).filter (fun node => decide (node ∈ st.nfa_set))) [] with
      | none =>
        simp only [makeDfasLoop, hget, hba] at h
        cases h
      | some entries =>
        cases hpe : processEntries rule finish entries states idx with
        | error e =>
          simp only [makeDfasLoop, hget, hba, hpe] at h
          cases h
        | ok states2 =>
          simp only [makeDfasLoop, hget, hba, hpe] at h
          exact ih states2 out (idx + 1) h
            (processEntries_nodup rule finish entries states states2 idx hpe
              (get?_some_lt hget) hinv)

theorem makeDfasLoop_get0 (nfa : NFAGraph) (rule : String) (finish cfuel : Nat) :
    ∀ (fuel : Nat) (states out : List DFAState) (idx : Nat),
      makeDfasLoop nfa rule finish cfuel fuel states idx = Except.ok out →
      ∀ st0, states.get? 0 = some st0 →
        ∃ st1, out.get? 0 = some st1 ∧ st1.nfa_set = st0.nfa_set := by
  intro fuel
  induction fuel with
  | zero => intro states out idx h; cases h
  | succ f ih =>
    intro states out idx h st0 h0
    cases hget : states.get? idx with
    | none =>
      simp only [makeDfasLoop, hget] at h
      cases h
      exact ⟨st0, h0, rfl⟩
    | some st =>
      cases hba : buildArcs nfa cfuel ((List.range nfa.n).filter (fun node => decide (node ∈ st.nfa_set))) [] with
      | none =>
        simp only [makeDfasLoop, hget, hba] at h
        cases h
      | some entries =>
        cases hpe : processEntries rule finish entries states idx with
        | error e =>
          simp only [makeDfasLoop, hget, hba, hpe] at h
          cases h
        | ok states2 =>
          simp only [makeDfasLoop, hget, hba, hpe] at h
          obtain ⟨ha, hb, hc, hd⟩ :=
            processEntries_spec rule finish entries states states2 idx hpe
              (get?_some_lt hget)
          by_cases hz : idx = 0
          · subst hz
            have h0e : st = st0 := by
              rw [hget] at h0
              cases h0
              rfl
            subst h0e
            obtain ⟨st2, h2, h2a, _, _, _⟩ := hc st hget
            obtain ⟨st1, h1, h1a⟩ := ih states2 out 1 h st2 h2
            exact ⟨st1, h1, by rw [h1a, h2a]⟩
          · have h0b : states2.get? 0 = some st0 := by
              rw [hb 0 (get?_some_lt h0) (fun he => hz he.symm), h0]
            obtain ⟨st1, h1, h1a⟩ := ih states2 out (idx + 1) h st0 h0b
            exact ⟨st1, h1, h1a⟩

theorem makeDfasLoop_empty_step (rule : String) (finish : Nat)
    {entries : List (String × Finset Nat)} {states states2 : List DFAState} {idx : Nat}
    (hpe : processEntries rule finish entries states idx = Except.ok states2)
    (hidx : idx < states.length)
    (hempty : ∀ k st, idx ≤ k → states.get? k = some st → st.arcs = []) :
    ∀ k st, idx + 1 ≤ k → states2.get? k = some st → st.arcs = [] := by
  obtain ⟨ha, hb, hc, hd⟩ := processEntries_spec rule finish entries states states2 idx hpe hidx
  intro k st hk hget
  rcases Nat.lt_or_ge k states.length with hlt | hge
  · rw [hb k hlt (by omega)] at hget
    exact hempty k st (by omega) hget
  · obtain ⟨e2, _, he2⟩ := hd k hge st hget
    rw [he2]
    rfl

theorem makeDfasLoop_ok_or_fuel (nfa : NFAGraph) (rule : String) (finish cfuel : Nat) :
    ∀ (fuel : Nat) (states : List DFAState) (idx : Nat),
      (∀ k st, idx ≤ k → states.get? k = some st → st.arcs = []) →
      makeDfasLoop nfa rule finish cfuel fuel states idx = Except.error PErr.outOfFuel ∨
      ∃ out, makeDfasLoop nfa rule finish cfuel fuel states idx = Except.ok out := by
  intro fuel
  induction fuel with
  | zero => intro states idx _; exact Or.inl rfl
  | succ f ih =>
    intro states idx hempty
    cases hget : states.get? idx with
    | none =>
      right
      exact ⟨states, by simp only [makeDfasLoop, hget]⟩
    | some st =>
      cases hba : buildArcs nfa cfuel ((List.range nfa.n).filter (fun node => decide (node ∈ st.nfa_set))) [] with
      | none =>
        left
        simp only [makeDfasLoop, hget, hba]
      | some entries =>
        have hidx := get?_some_lt hget
        obtain ⟨states2, hpe⟩ := processEntries_isOk rule finish entries states idx hidx
          (buildArcs_keys_nodup nfa cfuel _ [] entries hba (by simp))
          (by
            intro st2 hst2 l hl
            rw [hempty idx st2 (le_refl _) hst2]
            simp)
        have hnext := makeDfasLoop_empty_step rule finish hpe hidx hempty
        rcases ih states2 (idx + 1) hnext with hfuel | ⟨out, hok⟩
        · left
          simp only [makeDfasLoop, hget, hba, hpe]
          exact hfuel
        · right
          exact ⟨out, by simp only [makeDfasLoop, hget, hba, hpe]; exact hok⟩

theorem makeDfasLoop_arcs_nodup (nfa : NFAGraph) (rule : String) (finish cfuel : Nat) :
    ∀ (fuel : Nat) (states out : List DFAState) (idx : Nat),
      makeDfasLoop nfa rule finish cfuel fuel states idx = Except.ok out →
      (∀ k st, idx ≤ k → states.get? k = some st → st.arcs = []) →
      (∀ k st, k < idx → states.get? k = some st → (st.arcs.map Prod.fst).Nodup) →
      ∀ st ∈ out, (st.arcs.map Prod.fst).Nodup := by
  intro fuel
  induction fuel with
  | zero => intro states out idx h; cases h
  | succ f ih =>
    intro states out idx h hempty hnodup
    cases hget : states.get? idx with
    | none =>
      simp only [makeDfasLoop, hget] at h
      cases h
      intro st hst
      obtain ⟨k, hk⟩ := List.mem_iff_get?.mp hst
      have hlen : states.length ≤ idx := List.get?_eq_none.mp hget
      exact hnodup k st (by have := get?_some_lt hk; omega) hk
    | some st =>
      cases hba : buildArcs nfa cfuel ((List.range nfa.n).filter (fun node => decide (node ∈ st.nfa_set))) [] with
      | none =>
        simp only [makeDfasLoop, hget, hba] at h
        cases h
      | some entries =>
        cases hpe : processEntries rule finish entries states idx with
        | error e =>
          simp only [makeDfasLoop, hget, hba, hpe] at h
          cases h
        | ok states2 =>
          simp only [makeDfasLoop, hget, hba, hpe] at h
          have hidx := get?_some_lt hget
          obtain ⟨ha, hb, hc, hd⟩ :=
            processEntries_spec rule finish entries states states2 idx hpe hidx
          apply ih states2 out (idx + 1) h (makeDfasLoop_empty_step rule finish hpe hidx hempty)
          intro k st2 hk hget2
          rcases Nat.lt_or_ge k idx with hlt | hge
          · rw [hb k (by omega) (by omega)] at hget2
            exact hnodup k st2 hlt hget2
          · have hke : k = idx := by omega
            subst hke
            obtain ⟨st3, h3, _, _, _, h3d⟩ := hc st hget
            rw [hget2] at h3
            cases h3
            rw [h3d, hempty k st (le_refl _) hget]
            simpa using buildArcs_keys_nodup nfa cfuel _ [] entries hba (by simp)

theorem makeDfasLoop_range {nfa : NFAGraph} (hwf : nfa.WF) (rule : String)
    (finish cfuel : Nat) :
    ∀ (fuel : Nat) (states out : List DFAState) (idx : Nat),
      makeDfasLoop nfa rule finish cfuel fuel states idx = Except.ok out →
      (∀ st ∈ states, st.nfa_set ⊆ Finset.range nfa.n) →
      ∀ st ∈ out, st.nfa_set ⊆ Finset.range nfa.n := by
  intro fuel
  induction fuel with
  | zero => intro states out idx h; cases h
  | succ f ih =>
    intro states out idx h hinv
    cases hget : states.get? idx with
    | none =>
      simp only [makeDfasLoop, hget] at h
      cases h
      exact hinv
    | some st =>
      cases hba : buildArcs nfa cfuel ((List.range nfa.n).filter (fun node => decide (node ∈ st.nfa_set))) [] with
      | none =>
        simp only [makeDfasLoop, hget, hba] at h
        cases h
      | some entries =>
        cases hpe : processEntries rule finish entries states idx with
        | error e =>
          simp only [makeDfasLoop, hget, hba, hpe] at h
          cases h
        | ok states2 =>
          simp only [makeDfasLoop, hget, hba, hpe] at h
          have hent : ∀ e ∈ entries, e.2 ⊆ Finset.range nfa.n := by
            intro e he
            exact buildArcs_range hwf cfuel _ [] entries hba
              (fun node hn => List.mem_range.mp (List.mem_filter.mp hn).1)
              (by simp) e he
          apply ih states2 out (idx + 1) h
          intro st2 hst2
          rcases processEntries_mem rule finish hpe (get?_some_lt hget) st2 hst2 with
            ⟨st3, hst3, ha2, _⟩ | ⟨e2, he2, he2b⟩
          · rw [ha2]
            exact hinv st3 hst3
          · rw [he2b]
            exact hent e2 he2

theorem length_le_two_pow {n : Nat} {states : List DFAState}
    (hnd : (states.map (fun st => st.nfa_set)).Nodup)
    (hr : ∀ st ∈ states, st.nfa_set ⊆ Finset.range n) :
    states.length ≤ 2 ^ n := by
  have h1 : (states.map (fun st => st.nfa_set)).toFinset.card = states.length := by
    rw [List.toFinset_card_of_nodup hnd, List.length_map]
  have h2 : (states.map fun st => st.nfa_set).toFinset ⊆ (Finset.range n).powerset := by
    intro x hx
    rw [List.mem_toFinset] at hx
    obtain ⟨st, hst, rfl⟩ := List.mem_map.mp hx
    exact Finset.mem_powerset.mpr (hr st hst)
  calc states.length = (states.map (fun st => st.nfa_set)).toFinset.card := h1.symm
    _ ≤ ((Finset.range n).powerset).card := Finset.card_le_card h2
    _ = 2 ^ n := by rw [Finset.card_powerset, Finset.card_range]

theorem makeDfasLoop_fuel {nfa : NFAGraph} (hwf : nfa.WF) (rule : String)
    (finish cfuel : Nat) (hcf : nfa.n + 1 ≤ cfuel) :
    ∀ (fuel : Nat) (states : List DFAState) (idx : Nat),
      (states.map (fun st => st.nfa_set)).Nodup →
      (∀ st ∈ states, st.nfa_set ⊆ Finset.range nfa.n) →
      (∀ k st, idx ≤ k → states.get? k = some st → st.arcs = []) →
      idx ≤ states.length →
      2 ^ nfa.n + 2 ≤ fuel + idx →
      ∃ out, makeDfasLoop nfa rule finish cfuel fuel states idx = Except.ok out := by
  intro fuel
  induction fuel with
  | zero =>
    intro states idx hnd hr _ hle hfuel
    have := length_le_two_pow hnd hr
    omega
  | succ f ih =>
    intro states idx hnd hr hempty hle hfuel
    cases hget : states.get? idx with
    | none => exact ⟨states, by simp only [makeDfasLoop, hget]⟩
    | some st =>
      have hidx := get?_some_lt hget
      have hba2 := buildArcs_fuel hwf cfuel hcf ((List.range nfa.n).filter (fun node => decide (node ∈ st.nfa_set))) []
        (fun node hn => List.mem_range.mp (List.mem_filter.mp hn).1)
        (by simp)
      cases hba : buildArcs nfa cfuel ((List.range nfa.n).filter (fun node => decide (node ∈ st.nfa_set))) [] with
      | none =>
        rw [hba] at hba2
        simp at hba2
      | some entries =>
        obtain ⟨states2, hpe⟩ := processEntries_isOk rule finish entries states idx hidx
          (buildArcs_keys_nodup nfa cfuel _ [] entries hba (by simp))
          (by
            intro st2 hst2 l hl
            rw [hempty idx st2 (le_refl _) hst2]
            simp)
        have hent : ∀ e ∈ entries, e.2 ⊆ Finset.range nfa.n := by
          intro e he
          exact buildArcs_range hwf cfuel _ [] entries hba
            (fun node hn => List.mem_range.mp (List.mem_filter.mp hn).1)
            (by simp) e he
        have hr2 : ∀ st2 ∈ states2, st2.nfa_set ⊆ Finset.range nfa.n := by
          intro st2 hst2
          rcases processEntries_mem rule finish hpe hidx st2 hst2 with
            ⟨st3, hst3, ha2, _⟩ | ⟨e2, he2, he2b⟩
          · rw [ha2]
            exact hr st3 hst3
          · rw [he2b]
            exact hent e2 he2
        have hnd2 := processEntries_nodup rule finish entries states states2 idx hpe hidx hnd
        have hempty2 := makeDfasLoop_empty_step rule finish hpe hidx hempty
        have hle2 : idx + 1 ≤ states2.length := by
          have := (processEntries_spec rule finish entries states states2 idx hpe hidx).1
          omega
        obtain ⟨out, hok⟩ := ih states2 (idx + 1) hnd2 hr2 hempty2 hle2 (by omega)
        exact ⟨out, by simp only [makeDfasLoop, hget, hba, hpe]; exact hok⟩

theorem make_dfas_initial_empty (rule : String) (base : Finset Nat) (finish : Nat) :
    ∀ k st, 0 ≤ k → [mkDFAState rule base finish].get? k = some st → st.arcs = [] := by
  intro k st _ h
  cases k with
  | zero =>
    cases h
    rfl
  | succ j => cases h

theorem make_dfas_ok_cases {fuel : Nat} {nfa : NFAGraph} {start finish : Nat}
    {states : List DFAState}
    (h : _make_dfas fuel nfa start finish = Except.ok states) :
    ∃ base, addclosure nfa fuel start ∅ = some base ∧
      makeDfasLoop nfa nfa.rule finish fuel fuel [mkDFAState nfa.rule base finish] 0 =
        Except.ok states := by
  rw [_make_dfas] at h
  cases hc : addclosure nfa fuel start ∅ with
  | none =>
    rw [hc] at h
    cases h
  | some base =>
    rw [hc] at h
    exact ⟨base, rfl, h⟩

theorem make_dfas_no_assert (fuel : Nat) (nfa : NFAGraph) (start finish : Nat) :
    _make_dfas fuel nfa start finish ≠ Except.error PErr.assertArc := by
  intro h
  rw [_make_dfas] at h
  cases hc : addclosure nfa fuel start ∅ with
  | none =>
    rw [hc] at h
    cases h
  | some base =>
    rw [hc] at h
    have h2 : makeDfasLoop nfa nfa.rule finish fuel fuel
        [mkDFAState nfa.rule base finish] 0 = Except.error PErr.assertArc := h
    rcases makeDfasLoop_ok_or_fuel nfa nfa.rule finish fuel fuel
        [mkDFAState nfa.rule base finish] 0
        (make_dfas_initial_empty nfa.rule base finish) with hres | ⟨out, hres⟩
    · rw [hres] at h2
      cases h2
    · rw [hres] at h2
      cases h2

theorem make_dfas_arcs_nodup {fuel : Nat} {nfa : NFAGraph} {start finish : Nat}
    {states : List DFAState}
    (h : _make_dfas fuel nfa start finish = Except.ok states) :
    ∀ st ∈ states, (st.arcs.map Prod.fst).Nodup := by
  obtain ⟨base, hc, hloop⟩ := make_dfas_ok_cases h
  exact makeDfasLoop_arcs_nodup nfa nfa.rule finish fuel fuel _ states 0 hloop
    (make_dfas_initial_empty nfa.rule base finish)
    (fun k st hk _ => by omega)

theorem make_dfas_final_inv {fuel : Nat} {nfa : NFAGraph} {start finish : Nat}
    {states : List DFAState}
    (h : _make_dfas fuel nfa start finish = Except.ok states) :
    ∀ st ∈ states, st.is_final = decide (finish ∈ st.nfa_set) := by
  obtain ⟨base, hc, hloop⟩ := make_dfas_ok_cases h
  apply makeDfasLoop_final_inv nfa nfa.rule finish fuel fuel _ states 0 hloop
  intro st hst
  rcases List.mem_singleton.mp hst with rfl
  rfl

theorem make_dfas_nodup_sets {fuel : Nat} {nfa : NFAGraph} {start finish : Nat}
    {states : List DFAState}
    (h : _make_dfas fuel nfa start finish = Except.ok states) :
    (states.map (fun st => st.nfa_set)).Nodup := by
  obtain ⟨base, hc, hloop⟩ := make_dfas_ok_cases h
  exact makeDfasLoop_nodup_sets nfa nfa.rule finish fuel fuel _ states 0 hloop (by simp)

theorem make_dfas_head_closure {fuel : Nat} {nfa : NFAGraph} {start finish : Nat}
    {states : List DFAState}
    (h : _make_dfas fuel nfa start finish = Except.ok states) :
    ∃ st0, states.get? 0 = some st0 ∧ ↑st0.nfa_set = epsClosure nfa start := by
  obtain ⟨base, hc, hloop⟩ := make_dfas_ok_cases h
  obtain ⟨st1, h1, h1a⟩ := makeDfasLoop_get0 nfa nfa.rule finish fuel fuel _ states 0 hloop
    (mkDFAState nfa.rule base finish) rfl
  refine ⟨st1, h1, ?_⟩
  rw [show st1.nfa_set = base from h1a]
  exact addclosure_eq_epsClosure hc

theorem make_dfas_fuel {nfa : NFAGraph} (hwf : nfa.WF) {start : Nat}
    (hstart : start < nfa.n) (finish : Nat) {F : Nat}
    (hF : 2 ^ nfa.n + nfa.n + 1 ≤ F) :
    ∃ states, _make_dfas F nfa start finish = Except.ok states := by
  have hn1 : 1 ≤ 2 ^ nfa.n := Nat.one_le_two_pow
  have hc2 := addclosure_fuel hwf F start ∅ hstart (by simp) (by simp; omega)
  cases hc : addclosure nfa F start ∅ with
  | none =>
    rw [hc] at hc2
    simp at hc2
  | some base =>
    have hrange : base ⊆ Finset.range nfa.n :=
      addclosure_range hwf F start ∅ base hc hstart (by simp)
    obtain ⟨out, hout⟩ := makeDfasLoop_fuel hwf nfa.rule finish F (by omega) F
      [mkDFAState nfa.rule base finish] 0
      (by simp)
      (by
        intro st hst
        rcases List.mem_singleton.mp hst with rfl
        exact hrange)
      (make_dfas_initial_empty nfa.rule base finish)
      (by simp)
      (by omega)
    refine ⟨out, ?_⟩
    rw [_make_dfas, hc]
    exact hout

/-! ### Lemmas about the minimizer -/

theorem findJFrom_some {dfas : List (Nat × DFAState)} {di : Nat × DFAState} :
    ∀ (count j jr : Nat), findJFrom dfas di count j = some jr →
      j ≤ jr ∧ ∃ dj, dfas.get? jr = some dj ∧ dfaEq di.2 dj.2 = true := by
  intro count
  induction count with
  | zero => intro j jr h; cases h
  | succ c ih =>
    intro j jr h
    cases hg : dfas.get? j with
    | none =>
      simp only [findJFrom, hg] at h
      cases h
    | some dj =>
      simp only [findJFrom, hg] at h
      split at h
      · cases h
        exact ⟨le_refl _, dj, hg, by assumption⟩
      · obtain ⟨h1, h2⟩ := ih (j + 1) jr h
        exact ⟨by omega, h2⟩

theorem findJFrom_none {dfas : List (Nat × DFAState)} {di : Nat × DFAState} :
    ∀ (count j : Nat), findJFrom dfas di count j = none →
      ∀ j2, j ≤ j2 → j2 < j + count → ∀ dj, dfas.get? j2 = some dj →
        dfaEq di.2 dj.2 = false := by
  intro count
  induction count with
  | zero => intro j _ j2 _ _ _ _; omega
  | succ c ih =>
    intro j h j2 hj2 hj2b dj hg2
    cases hg : dfas.get? j with
    | none =>
      have h1 : dfas.length ≤ j := List.get?_eq_none.mp hg
      have h2 := get?_some_lt hg2
      omega
    | some dj0 =>
      simp only [findJFrom, hg] at h
      split at h
      · cases h
      · rcases Nat.eq_or_lt_of_le hj2 with rfl | hlt
        · rw [hg] at hg2
          cases hg2
          rename_i hne
          simpa using hne
        · exact ih (j + 1) h j2 (by omega) (by omega) dj hg2

theorem findJ_some {dfas : List (Nat × DFAState)} {i j : Nat}
    (h : findJ dfas i = some j) :
    i < j ∧ j < dfas.length ∧ ∃ di dj, dfas.get? i = some di ∧ dfas.get? j = some dj ∧
      dfaEq di.2 dj.2 = true := by
  cases hg : dfas.get? i with
  | none =>
    simp only [findJ, hg] at h
    cases h
  | some di =>
    simp only [findJ, hg] at h
    obtain ⟨h1, dj, h2, h3⟩ := findJFrom_some _ _ j h
    exact ⟨by omega, get?_some_lt h2, di, dj, rfl, h2, h3⟩

theorem findJ_none {dfas : List (Nat × DFAState)} {i : Nat}
    (h : findJ dfas i = none) (hi : i < dfas.length) :
    ∀ j, i < j → j < dfas.length → ∀ di dj,
      dfas.get? i = some di → dfas.get? j = some dj → dfaEq di.2 dj.2 = false := by
  intro j hij hjl di dj hgi hgj
  simp only [findJ, hgi] at h
  exact findJFrom_none _ _ h j (by omega) (by omega) dj hgj

theorem pass_false_eq :
    ∀ (f : Nat) (d d2 : List (Nat × DFAState)) (i : Nat),
      passFromF f d i = some (d2, false) → d2 = d := by
  intro f
  induction f with
  | zero => intro d d2 i h; cases h
  | succ f ih =>
    intro d d2 i h
    by_cases hi : i < d.length
    · cases hj : findJ d i with
      | some j =>
        obtain ⟨hij, hjl, di, dj, hgi, hgj, heq⟩ := findJ_some hj
        cases hp : passFromF f ((d.eraseIdx j).map
            fun p => (p.1, p.2.unifystate dj.1 di.1)) (i + 1) with
        | none =>
          simp only [passFromF, if_pos hi, hj, hgi, hgj, hp] at h
          cases h
        | some rb =>
          obtain ⟨res, b⟩ := rb
          simp only [passFromF, if_pos hi, hj, hgi, hgj, hp] at h
          cases h
      | none =>
        simp only [passFromF, if_pos hi, hj] at h
        exact ih d d2 (i + 1) h
    · simp only [passFromF, if_neg hi] at h
      cases h
      rfl

theorem pass_length_le :
    ∀ (f : Nat) (d d2 : List (Nat × DFAState)) (ch : Bool) (i : Nat),
      passFromF f d i = some (d2, ch) → d2.length ≤ d.length := by
  intro f
  induction f with
  | zero => intro d d2 ch i h; cases h
  | succ f ih =>
    intro d d2 ch i h
    by_cases hi : i < d.length
    · cases hj : findJ d i with
      | some j =>
        obtain ⟨hij, hjl, di, dj, hgi, hgj, heq⟩ := findJ_some hj
        cases hp : passFromF f ((d.eraseIdx j).map
            fun p => (p.1, p.2.unifystate dj.1 di.1)) (i + 1) with
        | none =>
          simp only [passFromF, if_pos hi, hj, hgi, hgj, hp] at h
          cases h
        | some rb =>
          obtain ⟨res, b⟩ := rb
          simp only [passFromF, if_pos hi, hj, hgi, hgj, hp] at h
          cases h
          have h1 := ih _ _ _ (i + 1) hp
          rw [List.length_map, List.length_eraseIdx, if_pos hjl] at h1
          omega
      | none =>
        simp only [passFromF, if_pos hi, hj] at h
        exact ih d d2 ch (i + 1) h
    · simp only [passFromF, if_neg hi] at h
      cases h
      exact le_refl _

theorem pass_true_lt :
    ∀ (f : Nat) (d d2 : List (Nat × DFAState)) (i : Nat),
      passFromF f d i = some (d2, true) → d2.length < d.length := by
  intro f
  induction f with
  | zero => intro d d2 i h; cases h
  | succ f ih =>
    intro d d2 i h
    by_cases hi : i < d.length
    · cases hj : findJ d i with
      | some j =>
        obtain ⟨hij, hjl, di, dj, hgi, hgj, heq⟩ := findJ_some hj
        cases hp : passFromF f ((d.eraseIdx j).map
            fun p => (p.1, p.2.unifystate dj.1 di.1)) (i + 1) with
        | none =>
          simp only [passFromF, if_pos hi, hj, hgi, hgj, hp] at h
          cases h
        | some rb =>
          obtain ⟨res, b⟩ := rb
          simp only [passFromF, if_pos hi, hj, hgi, hgj, hp] at h
          cases h
          have h1 := pass_length_le f _ _ _ (i + 1) hp
          rw [List.length_map, List.length_eraseIdx, if_pos hjl] at h1
          omega
      | none =>
        simp only [passFromF, if_pos hi, hj] at h
        exact ih d d2 (i + 1) h
    · simp only [passFromF, if_neg hi] at h
      cases h

theorem pass_rtg :
    ∀ (f : Nat) (d d2 : List (Nat × DFAState)) (ch : Bool) (i : Nat),
      passFromF f d i = some (d2, ch) → Relation.ReflTransGen mergeStep d d2 := by
  intro f
  induction f with
  | zero => intro d d2 ch i h; cases h
  | succ f ih =>
    intro d d2 ch i h
    by_cases hi : i < d.length
    · cases hj : findJ d i with
      | some j =>
        obtain ⟨hij, hjl, di, dj, hgi, hgj, heq⟩ := findJ_some hj
        cases hp : passFromF f ((d.eraseIdx j).map
            fun p => (p.1, p.2.unifystate dj.1 di.1)) (i + 1) with
        | none =>
          simp only [passFromF, if_pos hi, hj, hgi, hgj, hp] at h
          cases h
        | some rb =>
          obtain ⟨res, b⟩ := rb
          simp only [passFromF, if_pos hi, hj, hgi, hgj, hp] at h
          cases h
          exact Relation.ReflTransGen.head
            ⟨i, j, di, dj, hij, hgi, hgj, heq, rfl⟩
            (ih _ _ _ (i + 1) hp)
      | none =>
        simp only [passFromF, if_pos hi, hj] at h
        exact ih d d2 ch (i + 1) h
    · simp only [passFromF, if_neg hi] at h
      cases h
      exact Relation.ReflTransGen.refl

theorem pass_mem :
    ∀ (f : Nat) (d d2 : List (Nat × DFAState)) (ch : Bool) (i : Nat),
      passFromF f d i = some (d2, ch) →
      ∀ p ∈ d2, ∃ q ∈ d, p.1 = q.1 ∧ p.2.is_final = q.2.is_final ∧
        p.2.nfa_set = q.2.nfa_set := by
  intro f
  induction f with
  | zero => intro d d2 ch i h; cases h
  | succ f ih =>
    intro d d2 ch i h
    by_cases hi : i < d.length
    · cases hj : findJ d i with
      | some j =>
        obtain ⟨hij, hjl, di, dj, hgi, hgj, heq⟩ := findJ_some hj
        cases hp : passFromF f ((d.eraseIdx j).map
            fun p => (p.1, p.2.unifystate dj.1 di.1)) (i + 1) with
        | none =>
          simp only [passFromF, if_pos hi, hj, hgi, hgj, hp] at h
          cases h
        | some rb =>
          obtain ⟨res, b⟩ := rb
          simp only [passFromF, if_pos hi, hj, hgi, hgj, hp] at h
          cases h
          intro p hp2
          obtain ⟨q, hq, hq1, hq2, hq3⟩ := ih _ _ _ (i + 1) hp p hp2
          obtain ⟨r, hr, hr2⟩ := List.mem_map.mp hq
          refine ⟨r, List.mem_of_mem_eraseIdx hr, ?_, ?_, ?_⟩
          · rw [hq1, ← hr2]
          · rw [hq2, ← hr2]
            rfl
          · rw [hq3, ← hr2]
            rfl
      | none =>
        simp only [passFromF, if_pos hi, hj] at h
        exact ih d d2 ch (i + 1) h
    · simp only [passFromF, if_neg hi] at h
      cases h
      intro p hp2
      exact ⟨p, hp2, rfl, rfl, rfl⟩

theorem pass_fuel :
    ∀ (f : Nat) (d : List (Nat × DFAState)) (i : Nat),
      1 ≤ f → d.length + 1 ≤ f + i → (passFromF f d i).isSome := by
  intro f
  induction f with
  | zero => intro d i h1 _; omega
  | succ f ih =>
    intro d i _ hf
    by_cases hi : i < d.length
    · cases hj : findJ d i with
      | some j =>
        obtain ⟨hij, hjl, di, dj, hgi, hgj, heq⟩ := findJ_some hj
        have hlen : ((d.eraseIdx j).map
            fun p => (p.1, p.2.unifystate dj.1 di.1)).length = d.length - 1 := by
          rw [List.length_map, List.length_eraseIdx, if_pos hjl]
        have hrec := ih ((d.eraseIdx j).map
            fun p => (p.1, p.2.unifystate dj.1 di.1)) (i + 1) (by omega) (by omega)
        cases hp : passFromF f ((d.eraseIdx j).map
            fun p => (p.1, p.2.unifystate dj.1 di.1)) (i + 1) with
        | none =>
          rw [hp] at hrec
          simp at hrec
        | some rb =>
          obtain ⟨res, b⟩ := rb
          simp only [passFromF, if_pos hi, hj, hgi, hgj, hp]
          rfl
      | none =>
        have hrec := ih d (i + 1) (by omega) (by omega)
        simp only [passFromF, if_pos hi, hj]
        exact hrec
    · simp only [passFromF, if_neg hi]
      rfl

theorem pass_false_no_pairs :
    ∀ (f : Nat) (d d2 : List (Nat × DFAState)) (i : Nat),
      passFromF f d i = some (d2, false) →
      ∀ i2 j, i ≤ i2 → i2 < j → j < d.length → ∀ di dj,
        d.get? i2 = some di → d.get? j = some dj → dfaEq di.2 dj.2 = false := by
  intro f
  induction f with
  | zero => intro d d2 i h; cases h
  | succ f ih =>
    intro d d2 i h i2 j hi2 hij hjl di dj hgi hgj
    by_cases hi : i < d.length
    · cases hj : findJ d i with
      | some j0 =>
        obtain ⟨hij0, hjl0, di0, dj0, hgi0, hgj0, heq0⟩ := findJ_some hj
        cases hp : passFromF f ((d.eraseIdx j0).map
            fun p => (p.1, p.2.unifystate dj0.1 di0.1)) (i + 1) with
        | none =>
          simp only [passFromF, if_pos hi, hj, hgi0, hgj0, hp] at h
          cases h
        | some rb =>
          obtain ⟨res, b⟩ := rb
          simp only [passFromF, if_pos hi, hj, hgi0, hgj0, hp] at h
          cases h
      | none =>
        simp only [passFromF, if_pos hi, hj] at h
        rcases Nat.eq_or_lt_of_le hi2 with rfl | hlt
        · exact findJ_none hj hi j hij hjl di dj hgi hgj
        · exact ih d d2 (i + 1) h i2 j (by omega) hij hjl di dj hgi hgj
    · simp only [passFromF, if_neg hi] at h
      cases h
      omega

theorem simplify_fixpoint :
    ∀ (fuel : Nat) (d out : List (Nat × DFAState)),
      _simplify_dfas fuel d = some out →
      passFromF (out.length + 1) out 0 = some (out, false) := by
  intro fuel
  induction fuel with
  | zero => intro d out h; cases h
  | succ f ih =>
    intro d out h
    cases hp : passFromF (d.length + 1) d 0 with
    | none =>
      simp only [_simplify_dfas, hp] at h
      cases h
    | some rb =>
      obtain ⟨d2, ch⟩ := rb
      cases ch with
      | false =>
        simp only [_simplify_dfas, hp] at h
        cases h
        have he : out = d := pass_false_eq _ _ _ _ hp
        rw [he]
        rw [he] at hp
        exact hp
      | true =>
        simp only [_simplify_dfas, hp] at h
        exact ih d2 out h

theorem simplify_rtg :
    ∀ (fuel : Nat) (d out : List (Nat × DFAState)),
      _simplify_dfas fuel d = some out → Relation.ReflTransGen mergeStep d out := by
  intro fuel
  induction fuel with
  | zero => intro d out h; cases h
  | succ f ih =>
    intro d out h
    cases hp : passFromF (d.length + 1) d 0 with
    | none =>
      simp only [_simplify_dfas, hp] at h
      cases h
    | some rb =>
      obtain ⟨d2, ch⟩ := rb
      cases ch with
      | false =>
        simp only [_simplify_dfas, hp] at h
        cases h
        exact pass_rtg _ _ _ _ _ hp
      | true =>
        simp only [_simplify_dfas, hp] at h
        exact (pass_rtg _ _ _ _ _ hp).trans (ih d2 out h)

theorem simplify_mem :
    ∀ (fuel : Nat) (d out : List (Nat × DFAState)),
      _simplify_dfas fuel d = some out →
      ∀ p ∈ out, ∃ q ∈ d, p.1 = q.1 ∧ p.2.is_final = q.2.is_final ∧
        p.2.nfa_set = q.2.nfa_set := by
  intro fuel
  induction fuel with
  | zero => intro d out h; cases h
  | succ f ih =>
    intro d out h
    cases hp : passFromF (d.length + 1) d 0 with
    | none =>
      simp only [_simplify_dfas, hp] at h
      cases h
    | some rb =>
      obtain ⟨d2, ch⟩ := rb
      cases ch with
      | false =>
        simp only [_simplify_dfas, hp] at h
        cases h
        exact pass_mem _ _ _ _ _ hp
      | true =>
        simp only [_simplify_dfas, hp] at h
        intro p hp2
        obtain ⟨q, hq, hq1, hq2, hq3⟩ := ih d2 out h p hp2
        obtain ⟨r, hr, hr1, hr2, hr3⟩ := pass_mem _ _ _ _ _ hp q hq
        exact ⟨r, hr, by rw [hq1, hr1], by rw [hq2, hr2], by rw [hq3, hr3]⟩

theorem simplify_fuel :
    ∀ (fuel : Nat) (d : List (Nat × DFAState)),
      d.length + 1 ≤ fuel → (_simplify_dfas fuel d).isSome := by
  intro fuel
  induction fuel with
  | zero => intro d h; omega
  | succ f ih =>
    intro d hf
    have hpass := pass_fuel (d.length + 1) d 0 (by omega) (by omega)
    cases hp : passFromF (d.length + 1) d 0 with
    | none =>
      rw [hp] at hpass
      simp at hpass
    | some rb =>
      obtain ⟨d2, ch⟩ := rb
      cases ch with
      | false => simp only [_simplify_dfas, hp]; rfl
      | true =>
        have hlt := pass_true_lt _ _ _ _ hp
        simp only [_simplify_dfas, hp]
        exact ih d2 (by omega)

theorem simplify_second_run {fuel : Nat} {d out : List (Nat × DFAState)}
    (h : _simplify_dfas fuel d = some out) :
    ∀ f2, 0 < f2 → _simplify_dfas f2 out = some out := by
  intro f2 hf2
  have hfix := simplify_fixpoint fuel d out h
  cases f2 with
  | zero => omega
  | succ g => simp only [_simplify_dfas, hfix]

theorem simplify_no_pairs {fuel : Nat} {d out : List (Nat × DFAState)}
    (h : _simplify_dfas fuel d = some out) :
    ∀ i j di dj, i < j → out.get? i = some di → out.get? j = some dj →
      dfaEq di.2 dj.2 = false := by
  intro i j di dj hij hgi hgj
  exact pass_false_no_pairs _ _ _ _ (simplify_fixpoint fuel d out h) i j (by omega) hij
    (get?_some_lt hgj) di dj hgi hgj

/-! ### The claims -/

/-- C1: for every NFA fragment, a successful run of `_make_dfas` returns a
non-empty list, the first state's NFA node set is exactly the epsilon
closure of `start`, and no two states in the returned list have equal NFA
node sets (the linear dedup scan reuses a state with an identical node set
instead of appending a duplicate). -/
theorem C1_make_dfas_seed_and_dedup {fuel : Nat} {nfa : NFAGraph} {start finish : Nat}
    {states : List DFAState}
    (h : _make_dfas fuel nfa start finish = Except.ok states) :
    states ≠ [] ∧
    (∃ st0, states.get? 0 = some st0 ∧ ↑st0.nfa_set = epsClosure nfa start) ∧
    (states.map (fun st => st.nfa_set)).Nodup := by
  obtain ⟨st0, h0, hc⟩ := make_dfas_head_closure h
  refine ⟨?_, ⟨st0, h0, hc⟩, make_dfas_nodup_sets h⟩
  intro he
  rw [he] at h0
  cases h0

theorem C1_witness :
    _make_dfas 7 loopNFA 0 1 = Except.ok loopStates ∧
    (loopStates ≠ [] ∧
      (∃ st0, loopStates.get? 0 = some st0 ∧ ↑st0.nfa_set = epsClosure loopNFA 0) ∧
      (loopStates.map (fun st => st.nfa_set)).Nodup) :=
  ⟨by decide, C1_make_dfas_seed_and_dedup
    (show _make_dfas 7 loopNFA 0 1 = Except.ok loopStates by decide)⟩

/-- C2: a successful run of `_simplify_dfas` reaches its result through a
sequence of merges, each removing the later state `j` of a pair of equal
states and rewriting every remaining state's arcs from the deleted identity
to the identity of state `i`; the result contains no equal pair any more,
and the final full pass performs zero merges and leaves the list
unchanged. -/
theorem C2_simplify_merges_to_fixpoint {fuel : Nat} {d out : List (Nat × DFAState)}
    (h : _simplify_dfas fuel d = some out) :
    Relation.ReflTransGen mergeStep d out ∧
    (∀ i j di dj, i < j → out.get? i = some di → out.get? j = some dj →
      dfaEq di.2 dj.2 = false) ∧
    passFromF (out.length + 1) out 0 = some (out, false) :=
  ⟨simplify_rtg fuel d out h, simplify_no_pairs h, simplify_fixpoint fuel d out h⟩

theorem C2_witness :
    _simplify_dfas 3 dupDfas = some dupMerged ∧
    (Relation.ReflTransGen mergeStep dupDfas dupMerged ∧
      (∀ i j di dj, i < j → dupMerged.get? i = some di → dupMerged.get? j = some dj →
        dfaEq di.2 dj.2 = false) ∧
      passFromF (dupMerged.length + 1) dupMerged 0 = some (dupMerged, false)) :=
  ⟨by decide, C2_simplify_merges_to_fixpoint
    (show _simplify_dfas 3 dupDfas = some dupMerged by decide)⟩

/-- C3: every state of a successful `_make_dfas` run is final exactly when
the rule's finish node is a member of its NFA node set, and the same holds
for every state surviving minimization by `_simplify_dfas`. -/
theorem C3_final_iff_finish_mem {fuel : Nat} {nfa : NFAGraph} {start finish : Nat}
    {states : List DFAState}
    (h : _make_dfas fuel nfa start finish = Except.ok states) :
    (∀ st ∈ states, st.is_final = true ↔ finish ∈ st.nfa_set) ∧
    (∀ fuel2 out, _simplify_dfas fuel2 states.enum = some out →
      ∀ p ∈ out, p.2.is_final = true ↔ finish ∈ p.2.nfa_set) := by
  have h1 := make_dfas_final_inv h
  constructor
  · intro st hst
    rw [h1 st hst]
    simp
  · intro fuel2 out h2 p hp
    obtain ⟨q, hq, _, hfin, hset⟩ := simplify_mem fuel2 _ out h2 p hp
    have hq2 : q.2 ∈ states :=
      List.get?_mem (List.mem_enum_iff_get?.mp hq)
    rw [hfin, hset, h1 q.2 hq2]
    simp

theorem C3_witness :
    _make_dfas 7 loopNFA 0 1 = Except.ok loopStates ∧
    ((∀ st ∈ loopStates, st.is_final = true ↔ 1 ∈ st.nfa_set) ∧
      (∀ fuel2 out, _simplify_dfas fuel2 loopStates.enum = some out →
        ∀ p ∈ out, p.2.is_final = true ↔ 1 ∈ p.2.nfa_set)) :=
  ⟨by decide, C3_final_iff_finish_mem
    (show _make_dfas 7 loopNFA 0 1 = Except.ok loopStates by decide)⟩

/-- C5: on a well-formed fragment the epsilon closure computation, the
powerset construction and the minimizer all terminate: enough fuel always
exists, so compilation cannot loop forever, cyclic fragments included. -/
theorem C5_compilation_terminates {nfa : NFAGraph} (hwf : nfa.WF) {start : Nat}
    (hstart : start < nfa.n) (finish : Nat) :
    (addclosure nfa (nfa.n + 1) start ∅).isSome ∧
    (∃ states, _make_dfas (2 ^ nfa.n + nfa.n + 1) nfa start finish = Except.ok states) ∧
    (∀ d : List (Nat × DFAState), (_simplify_dfas (d.length + 1) d).isSome) :=
  ⟨addclosure_fuel hwf (nfa.n + 1) start ∅ hstart (by simp) (by simp),
    make_dfas_fuel hwf hstart finish (le_refl _),
    fun d => simplify_fuel _ d (le_refl _)⟩

theorem C5_witness :
    loopNFA.WF ∧ 0 < loopNFA.n ∧
    ((addclosure loopNFA (loopNFA.n + 1) 0 ∅).isSome ∧
      (∃ states, _make_dfas (2 ^ loopNFA.n + loopNFA.n + 1) loopNFA 0 1 =
        Except.ok states) ∧
      (∀ d : List (Nat × DFAState), (_simplify_dfas (d.length + 1) d).isSome)) :=
  ⟨by decide, by decide, C5_compilation_terminates (by decide) (by decide) 1⟩

/-- C6: the powerset constructor produces states with pairwise distinct
outgoing labels, and the `add_arc` duplicate-label assertion can never fire:
`_make_dfas` never returns that assertion error, at any fuel, on any
input. -/
theorem C6_labels_deterministic :
    (∀ (fuel : Nat) (nfa : NFAGraph) (start finish : Nat),
      _make_dfas fuel nfa start finish ≠ Except.error PErr.assertArc) ∧
    (∀ (fuel : Nat) (nfa : NFAGraph) (start finish : Nat) (states : List DFAState),
      _make_dfas fuel nfa start finish = Except.ok states →
      ∀ st ∈ states, (st.arcs.map Prod.fst).Nodup) :=
  ⟨make_dfas_no_assert, fun _ _ _ _ _ h => make_dfas_arcs_nodup h⟩

theorem C6_witness :
    _make_dfas 7 loopNFA 0 1 ≠ Except.error PErr.assertArc ∧
    (∀ st ∈ loopStates, (st.arcs.map Prod.fst).Nodup) :=
  ⟨C6_labels_deterministic.1 7 loopNFA 0 1,
    C6_labels_deterministic.2 7 loopNFA 0 1 loopStates (by decide)⟩

/-- C8: running the minimizer on an already minimized list performs zero
merges (the single pass reports no change) and returns the same list, with
the same states in the same order and the same arc targets. -/
theorem C8_minimizer_idempotent {fuel : Nat} {d out : List (Nat × DFAState)}
    (h : _simplify_dfas fuel d = some out) :
    passFromF (out.length + 1) out 0 = some (out, false) ∧
    ∀ f2, 0 < f2 → _simplify_dfas f2 out = some out :=
  ⟨simplify_fixpoint fuel d out h, simplify_second_run h⟩

theorem C8_witness :
    _simplify_dfas 3 dupDfas = some dupMerged ∧
    (passFromF (dupMerged.length + 1) dupMerged 0 = some (dupMerged, false) ∧
      ∀ f2, 0 < f2 → _simplify_dfas f2 dupMerged = some dupMerged) :=
  ⟨by decide, C8_minimizer_idempotent
    (show _simplify_dfas 3 dupDfas = some dupMerged by decide)⟩

/-- C10: a grammar with zero rules compiles without error to a grammar whose
start nonterminal is absent, whose rule table is empty and whose
reserved-string interning table is empty. -/
theorem C10_empty_grammar (token_namespace : String → Option Nat)
    (litEval : String → Option String) :
    generate_grammar [] token_namespace litEval =
      Except.ok (Grammar.mk none [] []) := rfl

/-! ### Lemmas about the transition compiler -/

theorem valueIndex_some :
    ∀ (l : List String) (value : String) (k i : Nat),
      valueIndex l value k = some i →
      k ≤ i ∧ l.get? (i - k) = some value := by
  intro l
  induction l with
  | nil => intro value k i h; cases h
  | cons v rest ih =>
    intro value k i h
    simp only [valueIndex] at h
    split at h
    · cases h
      rename_i hv
      refine ⟨le_refl _, ?_⟩
      simp [hv]
    · obtain ⟨h1, h2⟩ := ih value (k + 1) i h
      refine ⟨by omega, ?_⟩
      have : i - k = (i - (k + 1)) + 1 := by omega
      rw [this]
      simpa using h2

theorem valueIndex_none :
    ∀ (l : List String) (value : String) (k : Nat),
      valueIndex l value k = none → value ∉ l := by
  intro l
  induction l with
  | nil => intro value k _ hv; cases hv
  | cons v rest ih =>
    intro value k h hv
    simp only [valueIndex] at h
    split at h
    · cases h
    · rcases List.mem_cons.mp hv with rfl | hv2
      · rename_i hne
        exact hne rfl
      · exact ih value (k + 1) h hv2

theorem prefix_get? {l1 l2 : List String} (hp : l1 <+: l2) {i : Nat} {v : String}
    (h : l1.get? i = some v) : l2.get? i = some v := by
  obtain ⟨t, rfl⟩ := hp
  rw [List.get?_append (get?_some_lt h)]
  exact h

theorem keyMatches_mono {token_namespace : String → Option Nat}
    {litEval : String → Option String} {res res2 : List String}
    {label : String} {key : TransitionKey}
    (h : keyMatches token_namespace litEval res label key) (hp : res <+: res2) :
    keyMatches token_namespace litEval res2 label key := by
  rcases h with h | ⟨v, i, h1, h2, h3⟩
  · exact Or.inl h
  · exact Or.inr ⟨v, i, h1, h2, prefix_get? hp h3⟩

theorem make_transition_spec {token_namespace : String → Option Nat}
    {litEval : String → Option String} {res : List String} {label : String}
    {key : TransitionKey} {res2 : List String}
    (h : _make_transition token_namespace litEval res label = Except.ok (key, res2)) :
    res <+: res2 ∧ (res.Nodup → res2.Nodup) ∧
    keyMatches token_namespace litEval res2 label key := by
  cases hl : label.toList with
  | nil =>
    simp only [_make_transition, hl] at h
    cases h
  | cons c rest =>
    simp only [_make_transition, hl] at h
    split at h
    · -- alphabetic: token-namespace lookup
      cases ht : token_namespace label with
      | none =>
        simp only [ht] at h
        cases h
      | some t =>
        simp only [ht] at h
        cases h
        exact ⟨List.prefix_rfl, id, Or.inl ⟨c, rest, t, hl, by assumption, ht, rfl⟩⟩
    · split at h
      · -- quoted label
        split at h
        · cases h
        · cases he : litEval label with
          | none =>
            simp only [he] at h
            cases h
          | some value =>
            simp only [he] at h
            cases hv : valueIndex res value 0 with
            | some i =>
              simp only [hv] at h
              cases h
              obtain ⟨_, hg⟩ := valueIndex_some res value 0 i hv
              simp only [Nat.sub_zero] at hg
              exact ⟨List.prefix_rfl, id, Or.inr ⟨value, i, he, rfl, hg⟩⟩
            | none =>
              simp only [hv] at h
              cases h
              refine ⟨List.prefix_append _ _, ?_, ?_⟩
              · intro hn
                refine List.Nodup.append hn (List.nodup_singleton _) ?_
                intro x hx hx2
                rw [List.mem_singleton.mp hx2] at hx
                exact valueIndex_none res value 0 hv hx
              · exact Or.inr ⟨value, res.length, he, rfl, List.get?_concat_length _ _⟩
      · cases h

theorem forall₂_mem_left {α β : Type} {R : α → β → Prop} :
    ∀ {l1 : List α} {l2 : List β}, List.Forall₂ R l1 l2 →
      ∀ a ∈ l1, ∃ b ∈ l2, R a b := by
  intro l1
  induction l1 with
  | nil => intro l2 _ a ha; cases ha
  | cons x rest ih =>
    intro l2 h a ha
    cases l2 with
    | nil => cases h
    | cons y l2t =>
      obtain ⟨hxy, hrest⟩ := List.forall₂_cons.mp h
      rcases List.mem_cons.mp ha with rfl | ha2
      · exact ⟨y, List.mem_cons_self _ _, hxy⟩
      · obtain ⟨b, hb, hab⟩ := ih hrest a ha2
        exact ⟨b, List.mem_cons_of_mem _ hb, hab⟩

theorem forall₂_mem_right {α β : Type} {R : α → β → Prop} :
    ∀ {l1 : List α} {l2 : List β}, List.Forall₂ R l1 l2 →
      ∀ b ∈ l2, ∃ a ∈ l1, R a b := by
  intro l1
  induction l1 with
  | nil =>
    intro l2 h b hb
    cases h
    cases hb
  | cons x rest ih =>
    intro l2 h b hb
    cases l2 with
    | nil => cases hb
    | cons y l2t =>
      obtain ⟨hxy, hrest⟩ := List.forall₂_cons.mp h
      rcases List.mem_cons.mp hb with rfl | hb2
      · exact ⟨x, List.mem_cons_self _ _, hxy⟩
      · obtain ⟨a, ha, hab⟩ := ih hrest b hb2
        exact ⟨a, List.mem_cons_of_mem _ ha, hab⟩

theorem forall₂_map_eq {α β γ : Type} {R : α → β → Prop} {f : α → γ} {gf : β → γ}
    (hR : ∀ a b, R a b → gf b = f a) :
    ∀ (l : List α) (l2 : List β), List.Forall₂ R l l2 → l2.map gf = l.map f := by
  intro l
  induction l with
  | nil =>
    intro l2 h
    cases h
    rfl
  | cons x rest ih =>
    intro l2 h
    cases l2 with
    | nil => cases h
    | cons y l2t =>
      obtain ⟨hxy, hrest⟩ := List.forall₂_cons.mp h
      simp only [List.map_cons, hR x y hxy, ih l2t hrest]

theorem compileArcs_spec (ruleKeys : List String) (token_namespace : String → Option Nat)
    (litEval : String → Option String) :
    ∀ (arcs nta : List (String × Nat)) (plans : List (TransitionKey × DFAPlan))
      (res : List String) (nta2 : List (String × Nat))
      (plans2 : List (TransitionKey × DFAPlan)) (res2 : List String),
      compileArcs ruleKeys token_namespace litEval arcs nta plans res =
        Except.ok (nta2, plans2, res2) →
      res <+: res2 ∧ (res.Nodup → res2.Nodup) ∧
      nta2 = nta ++ arcs.filter (fun a => decide (a.1 ∈ ruleKeys)) ∧
      ∃ newPlans, plans2 = plans ++ newPlans ∧
        List.Forall₂ (fun (a : String × Nat) (q : TransitionKey × DFAPlan) =>
          q.2 = DFAPlan.mk a.2 ∧ keyMatches token_namespace litEval res2 a.1 q.1)
          (arcs.filter (fun a => decide (a.1 ∉ ruleKeys))) newPlans := by
  intro arcs
  induction arcs with
  | nil =>
    intro nta plans res nta2 plans2 res2 h
    simp only [compileArcs] at h
    cases h
    exact ⟨List.prefix_rfl, id, by simp, [], by simp, List.Forall₂.nil⟩
  | cons a rest ih =>
    obtain ⟨label, next_⟩ := a
    intro nta plans res nta2 plans2 res2 h
    simp only [compileArcs] at h
    split at h
    · rename_i hmem
      obtain ⟨hp, hnd, hnta, newPlans, hplans, hfa⟩ := ih _ _ _ _ _ _ h
      refine ⟨hp, hnd, ?_, newPlans, hplans, ?_⟩
      · rw [hnta, List.filter_cons_of_pos (by simpa using hmem)]
        simp
      · rw [List.filter_cons_of_neg (by simpa using hmem)]
        exact hfa
    · rename_i hmem
      cases hmt : _make_transition token_namespace litEval res label with
      | error e =>
        simp only [hmt] at h
        cases h
      | ok kr =>
        obtain ⟨key, resm⟩ := kr
        simp only [hmt] at h
        obtain ⟨hsp, hsnd, hskm⟩ := make_transition_spec hmt
        obtain ⟨hp, hnd, hnta, newPlans, hplans, hfa⟩ := ih _ _ _ _ _ _ h
        refine ⟨hsp.trans hp, fun hn => hnd (hsnd hn), ?_,
          (key, DFAPlan.mk next_) :: newPlans, ?_, ?_⟩
        · rw [hnta, List.filter_cons_of_neg (by simpa using hmem)]
        · rw [hplans]
          simp
        · rw [List.filter_cons_of_pos (by simpa using hmem)]
          exact List.Forall₂.cons ⟨rfl, keyMatches_mono hskm hp⟩ hfa

theorem compiledStateMatches_mono {ruleKeys : List String}
    {token_namespace : String → Option Nat} {litEval : String → Option String}
    {res res2 : List String} {p : Nat × DFAState} {cs : CompiledState}
    (h : compiledStateMatches ruleKeys token_namespace litEval res p cs)
    (hp : res <+: res2) :
    compiledStateMatches ruleKeys token_namespace litEval res2 p cs := by
  obtain ⟨h1, h2, h3, h4⟩ := h
  exact ⟨h1, h2, h3, h4.imp (fun a q hq => ⟨hq.1, keyMatches_mono hq.2 hp⟩)⟩

theorem compileStates_spec (ruleKeys : List String)
    (token_namespace : String → Option Nat) (litEval : String → Option String) :
    ∀ (dfas : List (Nat × DFAState)) (acc : List CompiledState) (res : List String)
      (acc2 : List CompiledState) (res2 : List String),
      compileStates ruleKeys token_namespace litEval dfas acc res =
        Except.ok (acc2, res2) →
      res <+: res2 ∧ (res.Nodup → res2.Nodup) ∧
      ∃ newCs, acc2 = acc ++ newCs ∧
        List.Forall₂ (compiledStateMatches ruleKeys token_namespace litEval res2)
          dfas newCs := by
  intro dfas
  induction dfas with
  | nil =>
    intro acc res acc2 res2 h
    simp only [compileStates] at h
    cases h
    exact ⟨List.prefix_rfl, id, [], by simp, List.Forall₂.nil⟩
  | cons p rest ih =>
    obtain ⟨id_, st⟩ := p
    intro acc res acc2 res2 h
    simp only [compileStates] at h
    cases hca : compileArcs ruleKeys token_namespace litEval st.arcs [] [] res with
    | error e =>
      simp only [hca] at h
      cases h
    | ok npr =>
      obtain ⟨nta, plans, resm⟩ := npr
      simp only [hca] at h
      obtain ⟨hsp, hsnd, hnta, newPlans, hplans, hfa⟩ :=
        compileArcs_spec ruleKeys token_namespace litEval _ _ _ _ _ _ _ hca
      obtain ⟨hp, hnd, newCs, hacc, hfa2⟩ := ih _ _ _ _ h
      refine ⟨hsp.trans hp, fun hn => hnd (hsnd hn),
        CompiledState.mk id_ st nta plans :: newCs, ?_, ?_⟩
      · rw [hacc]
        simp
      · refine List.Forall₂.cons ⟨rfl, rfl, ?_, ?_⟩ hfa2
        · rw [hnta]
          simp
        · rw [show plans = newPlans by simpa using hplans]
          exact hfa.imp (fun a q hq => ⟨hq.1, keyMatches_mono hq.2 hp⟩)

theorem compileRules_spec (ruleKeys : List String)
    (token_namespace : String → Option Nat) (litEval : String → Option String) :
    ∀ (rules : List (String × List (Nat × DFAState)))
      (acc : List (String × List CompiledState)) (res : List String)
      (acc2 : List (String × List CompiledState)) (res2 : List String),
      compileRules ruleKeys token_namespace litEval rules acc res =
        Except.ok (acc2, res2) →
      res <+: res2 ∧ (res.Nodup → res2.Nodup) ∧
      ∃ newRs, acc2 = acc ++ newRs ∧
        List.Forall₂ (fun (r : String × List (Nat × DFAState))
            (cr : String × List CompiledState) =>
          cr.1 = r.1 ∧
          List.Forall₂ (compiledStateMatches ruleKeys token_namespace litEval res2)
            r.2 cr.2)
          rules newRs := by
  intro rules
  induction rules with
  | nil =>
    intro acc res acc2 res2 h
    simp only [compileRules] at h
    cases h
    exact ⟨List.prefix_rfl, id, [], by simp, List.Forall₂.nil⟩
  | cons r rest ih =>
    obtain ⟨name, dfas⟩ := r
    intro acc res acc2 res2 h
    simp only [compileRules] at h
    cases hcs : compileStates ruleKeys token_namespace litEval dfas [] res with
    | error e =>
      simp only [hcs] at h
      cases h
    | ok cr =>
      obtain ⟨cstates, resm⟩ := cr
      simp only [hcs] at h
      obtain ⟨hsp, hsnd, newCs, hacc0, hfa⟩ :=
        compileStates_spec ruleKeys token_namespace litEval _ _ _ _ _ hcs
      obtain ⟨hp, hnd, newRs, hacc, hfa2⟩ := ih _ _ _ _ h
      refine ⟨hsp.trans hp, fun hn => hnd (hsnd hn),
        (name, cstates) :: newRs, ?_, ?_⟩
      · rw [hacc]
        simp
      · refine List.Forall₂.cons ⟨rfl, ?_⟩ hfa2
        rw [show cstates = newCs by simpa using hacc0]
        exact hfa.imp (fun p cs hq => compiledStateMatches_mono hq hp)

theorem generate_grammar_spec {frags : List Fragment}
    {token_namespace : String → Option Nat} {litEval : String → Option String}
    {g : Grammar}
    (h : generate_grammar frags token_namespace litEval = Except.ok g) :
    g.reserved_syntax_strings.Nodup ∧
    ∃ rules start, buildRules frags [] none = Except.ok (rules, start) ∧
      g.start_nonterminal = start ∧
      g.rule_to_dfas.map Prod.fst = rules.map Prod.fst ∧
      List.Forall₂ (fun (r : String × List (Nat × DFAState))
          (cr : String × List CompiledState) =>
        cr.1 = r.1 ∧
        List.Forall₂ (compiledStateMatches (rules.map Prod.fst) token_namespace litEval
          g.reserved_syntax_strings) r.2 cr.2)
        rules g.rule_to_dfas := by
  cases hbr : buildRules frags [] none with
  | error e =>
    simp only [generate_grammar, hbr] at h
    cases h
  | ok rs =>
    obtain ⟨rules, start⟩ := rs
    cases hcr : compileRules (rules.map Prod.fst) token_namespace litEval rules [] [] with
    | error e =>
      simp only [generate_grammar, hbr, hcr] at h
      cases h
    | ok cr =>
      obtain ⟨compiled, reserved⟩ := cr
      simp only [generate_grammar, hbr, hcr] at h
      cases h
      obtain ⟨hsp, hsnd, newRs, hacc, hfa⟩ :=
        compileRules_spec (rules.map Prod.fst) token_namespace litEval _ _ _ _ _ hcr
      have hnew : compiled = newRs := by simpa using hacc
      subst hnew
      refine ⟨hsnd List.nodup_nil, rules, start, rfl, rfl, ?_, hfa⟩
      exact forall₂_map_eq (fun r cr hq => hq.1) rules compiled hfa

theorem grammar_state_matched {frags : List Fragment}
    {token_namespace : String → Option Nat} {litEval : String → Option String}
    {g : Grammar}
    (h : generate_grammar frags token_namespace litEval = Except.ok g)
    {rcs : String × List CompiledState} {cs : CompiledState}
    (ha : rcs ∈ g.rule_to_dfas) (hb : cs ∈ rcs.2) :
    g.reserved_syntax_strings.Nodup ∧
    cs.nonterminal_arcs =
      cs.state.arcs.filter (fun a => decide (a.1 ∈ g.rule_to_dfas.map Prod.fst)) ∧
    List.Forall₂ (fun (a : String × Nat) (q : TransitionKey × DFAPlan) =>
      q.2 = DFAPlan.mk a.2 ∧
      keyMatches token_namespace litEval g.reserved_syntax_strings a.1 q.1)
      (cs.state.arcs.filter (fun a => decide (a.1 ∉ g.rule_to_dfas.map Prod.fst)))
      cs.ilabel_to_plan := by
  obtain ⟨hnodup, rules, start, hbr, hstart, hkeys, hfa⟩ := generate_grammar_spec h
  obtain ⟨r, hr, hr1, hfa2⟩ := forall₂_mem_right hfa rcs ha
  obtain ⟨p, hpmem, hid, hstate, hnta, hplans⟩ := forall₂_mem_right hfa2 cs hb
  rw [hkeys]
  rw [hstate]
  exact ⟨hnodup, hnta, hplans⟩

theorem grammar_arc_reserved {frags : List Fragment}
    {token_namespace : String → Option Nat} {litEval : String → Option String}
    {g : Grammar}
    (h : generate_grammar frags token_namespace litEval = Except.ok g)
    {rcs : String × List CompiledState} {cs : CompiledState}
    {l : String} {t : Nat} {v : String}
    (ha : rcs ∈ g.rule_to_dfas) (hb : cs ∈ rcs.2) (hc : (l, t) ∈ cs.state.arcs)
    (hd : l ∉ g.rule_to_dfas.map Prod.fst)
    (he : ∀ c r, l.toList = c :: r → c.isAlpha = false)
    (hf : litEval l = some v) :
    ∃ i, g.reserved_syntax_strings.get? i = some v ∧
      (TransitionKey.reserved i, DFAPlan.mk t) ∈ cs.ilabel_to_plan := by
  obtain ⟨hnodup, hnta, hplans⟩ := grammar_state_matched h ha hb
  have hfil : (l, t) ∈ cs.state.arcs.filter
      (fun a => decide (a.1 ∉ g.rule_to_dfas.map Prod.fst)) :=
    List.mem_filter.mpr ⟨hc, by simpa using hd⟩
  obtain ⟨q, hq, hq2, hkm⟩ := forall₂_mem_left hplans _ hfil
  rcases hkm with ⟨c, rest, tok, hl, halpha, _, _⟩ | ⟨v2, i, hv2, hkey, hget⟩
  · rw [he c rest hl] at halpha
    cases halpha
  · rw [hf] at hv2
    cases hv2
    refine ⟨i, hget, ?_⟩
    have hqe : q = (TransitionKey.reserved i, DFAPlan.mk t) := by
      obtain ⟨q1, q2⟩ := q
      simp only at hq2 hkey
      rw [hq2, hkey]
    rw [← hqe]
    exact hq

/-- C9: `_make_transition` raises on a triple-quoted literal and on a bare
alphabetic name that is missing from the token namespace: no transition key
is produced, compilation of the grammar aborts with the error. -/
theorem C9_make_transition_fatal (token_namespace : String → Option Nat)
    (litEval : String → Option String) (reserved : List String) (label : String) :
    (∀ c rest, label.toList = c :: rest → (c = '"' ∨ c = '\'') →
      isTripleQuoted label = true →
      _make_transition token_namespace litEval reserved label =
        Except.error PErr.assertTriple) ∧
    (∀ c rest, label.toList = c :: rest → c.isAlpha = true →
      token_namespace label = none →
      _make_transition token_namespace litEval reserved label =
        Except.error PErr.attributeError) := by
  constructor
  · intro c rest hl hq ht
    have hna : c.isAlpha = false := by
      rcases hq with rfl | rfl <;> decide
    simp only [_make_transition, hl, hna, Bool.false_eq_true, if_false, if_pos hq,
      if_pos ht]
  · intro c rest hl halpha htn
    simp only [_make_transition, hl, halpha, if_true, htn]

theorem C9_witness :
    _make_transition noTokens exLitEval [] tripleQ = Except.error PErr.assertTriple ∧
    _make_transition noTokens exLitEval [] "FOO" = Except.error PErr.attributeError :=
  ⟨(C9_make_transition_fatal noTokens exLitEval [] tripleQ).1 '"'
      ("\"\"x\"\"\"".toList) (by decide) (Or.inl rfl) (by decide),
    (C9_make_transition_fatal noTokens exLitEval [] "FOO").2 'F'
      ("OO".toList) (by decide) (by decide) rfl⟩

/-- C7: after `generate_grammar`, for every compiled state, an arc label is
recorded (with its target) in the nonterminal-transition view exactly when
it is a key of the complete rule table, and the remaining arcs are compiled,
in order, into transition keys whose plans wrap the arcs' targets in the
terminal-transition table. -/
theorem C7_transition_pass {frags : List Fragment}
    {token_namespace : String → Option Nat} {litEval : String → Option String}
    {g : Grammar}
    (h : generate_grammar frags token_namespace litEval = Except.ok g) :
    ∀ rcs ∈ g.rule_to_dfas, ∀ cs ∈ rcs.2,
      cs.nonterminal_arcs =
        cs.state.arcs.filter (fun a => decide (a.1 ∈ g.rule_to_dfas.map Prod.fst)) ∧
      (∀ l t2, (l, t2) ∈ cs.nonterminal_arcs ↔
        ((l, t2) ∈ cs.state.arcs ∧ l ∈ g.rule_to_dfas.map Prod.fst)) ∧
      List.Forall₂ (fun (a : String × Nat) (q : TransitionKey × DFAPlan) =>
        q.2 = DFAPlan.mk a.2 ∧
        keyMatches token_namespace litEval g.reserved_syntax_strings a.1 q.1)
        (cs.state.arcs.filter (fun a => decide (a.1 ∉ g.rule_to_dfas.map Prod.fst)))
        cs.ilabel_to_plan := by
  intro rcs ha cs hb
  obtain ⟨hnodup, hnta, hplans⟩ := grammar_state_matched h ha hb
  refine ⟨hnta, ?_, hplans⟩
  intro l t2
  rw [hnta]
  simp [List.mem_filter]

theorem C7_witness :
    generate_grammar [Fragment.mk ifNFA 0 1] exTokens exLitEval = Except.ok ifGrammar ∧
    (∀ rcs ∈ ifGrammar.rule_to_dfas, ∀ cs ∈ rcs.2,
      cs.nonterminal_arcs =
        cs.state.arcs.filter (fun a => decide (a.1 ∈ ifGrammar.rule_to_dfas.map Prod.fst)) ∧
      (∀ l t2, (l, t2) ∈ cs.nonterminal_arcs ↔
        ((l, t2) ∈ cs.state.arcs ∧ l ∈ ifGrammar.rule_to_dfas.map Prod.fst)) ∧
      List.Forall₂ (fun (a : String × Nat) (q : TransitionKey × DFAPlan) =>
        q.2 = DFAPlan.mk a.2 ∧
        keyMatches exTokens exLitEval ifGrammar.reserved_syntax_strings a.1 q.1)
        (cs.state.arcs.filter
          (fun a => decide (a.1 ∉ ifGrammar.rule_to_dfas.map Prod.fst)))
        cs.ilabel_to_plan) :=
  ⟨by decide, C7_transition_pass
    (show generate_grammar [Fragment.mk ifNFA 0 1] exTokens exLitEval =
      Except.ok ifGrammar by decide)⟩

/-- C4: any two quoted terminal labels anywhere in the compiled grammar that
unescape to the same literal value receive the identical reserved-string
object as their transition key, and that object is the one stored under the
value in the grammar-wide interning table. -/
theorem C4_literal_interning {frags : List Fragment}
    {token_namespace : String → Option Nat} {litEval : String → Option String}
    {g : Grammar}
    (h : generate_grammar frags token_namespace litEval = Except.ok g)
    {rcs1 rcs2 : String × List CompiledState} {cs1 cs2 : CompiledState}
    {l1 l2 : String} {t1 t2 : Nat} {v : String}
    (h1a : rcs1 ∈ g.rule_to_dfas) (h1b : cs1 ∈ rcs1.2)
    (h1c : (l1, t1) ∈ cs1.state.arcs) (h1d : l1 ∉ g.rule_to_dfas.map Prod.fst)
    (h1e : ∀ c r, l1.toList = c :: r → c.isAlpha = false)
    (h1f : litEval l1 = some v)
    (h2a : rcs2 ∈ g.rule_to_dfas) (h2b : cs2 ∈ rcs2.2)
    (h2c : (l2, t2) ∈ cs2.state.arcs) (h2d : l2 ∉ g.rule_to_dfas.map Prod.fst)
    (h2e : ∀ c r, l2.toList = c :: r → c.isAlpha = false)
    (h2f : litEval l2 = some v) :
    ∃ i, g.reserved_syntax_strings.get? i = some v ∧
      (TransitionKey.reserved i, DFAPlan.mk t1) ∈ cs1.ilabel_to_plan ∧
      (TransitionKey.reserved i, DFAPlan.mk t2) ∈ cs2.ilabel_to_plan := by
  obtain ⟨i1, hg1, hm1⟩ := grammar_arc_reserved h h1a h1b h1c h1d h1e h1f
  obtain ⟨i2, hg2, hm2⟩ := grammar_arc_reserved h h2a h2b h2c h2d h2e h2f
  have hnodup := (generate_grammar_spec h).1
  have hie : i1 = i2 :=
    List.get?_inj (get?_some_lt hg1) hnodup (by rw [hg1, hg2])
  subst hie
  exact ⟨i1, hg1, hm1, hm2⟩

theorem C4_witness :
    generate_grammar [Fragment.mk ifNFA 0 1] exTokens exLitEval = Except.ok ifGrammar ∧
    ∃ i, ifGrammar.reserved_syntax_strings.get? i = some "if" ∧
      (TransitionKey.reserved i, DFAPlan.mk 1) ∈ ifCs0.ilabel_to_plan ∧
      (TransitionKey.reserved i, DFAPlan.mk 1) ∈ ifCs0.ilabel_to_plan :=
  ⟨by decide,
    @C4_literal_interning [Fragment.mk ifNFA 0 1] exTokens exLitEval ifGrammar
      (show generate_grammar [Fragment.mk ifNFA 0 1] exTokens exLitEval =
        Except.ok ifGrammar by decide)
      ("r", [ifCs0, ifCs1]) ("r", [ifCs0, ifCs1]) ifCs0 ifCs0
      "\"if\"" "\"IF\"" 1 1 "if"
      (by decide) (by decide) (by decide) (by decide)
      (by
        intro c r hl
        cases hl
        decide)
      (by decide)
      (by decide) (by decide) (by decide) (by decide)
      (by
        intro c r hl
        cases hl
        decide)
      (by decide)⟩
